import Mathlib

/-!
Verification of the CSV codec of `utilful` (src/unnamed/part_005 and
src/src/csv.ts) against its natural-language specification.

Strings of the JavaScript source are modelled as `List Char`; JavaScript
objects whose values are strings are modelled as association lists
`List (List Char × List Char)`; thrown exceptions are modelled with
`Except CSVError`.  Async generators are modelled as the full list of the
values they yield (plus, for `parseCSVStream`, the error they may end with,
since a stream can yield records before failing).
-/

set_option maxHeartbeats 1000000

deriving instance DecidableEq for Except

/-- Shorthand turning a Lean string literal into the `List Char` model of a
JavaScript string. -/
def chars (s : String) : List Char := s.data

/-- The whitespace characters removed by JavaScript `String.prototype.trim`
(ASCII whitespace plus the common Unicode cases; the source never produces
the more exotic ones). -/
def isJSWhitespace (c : Char) : Bool :=
  c = ' ' || c = '\t' || c = '\n' || c = '\r' || c = '\x0b' || c = '\x0c' ||
  c = ' ' || c = '﻿'

/-- Model of JavaScript `String.prototype.trim`. -/
def jsTrim (s : List Char) : List Char :=
  (((s.dropWhile isJSWhitespace).reverse).dropWhile isJSWhitespace).reverse

/-- Model of JavaScript `Array.prototype.join(sep)`. -/
def joinSep (sep : List Char) : List (List Char) → List Char
  | [] => []
  | [x] => x
  | x :: y :: xs => x ++ sep ++ joinSep sep (y :: xs)

/-- Model of JavaScript `array.map((x, i) => f i x)` with explicit start
index, so that inductions can shift the index. -/
def mapWithIndex (f : Nat → α → β) : Nat → List α → List β
  | _, [] => []
  | i, a :: as => f i a :: mapWithIndex f (i + 1) as

/-- Decimal rendering of a number, as used inside error messages. -/
def natChars (n : Nat) : List Char := (Nat.repr n).data

-- #region Error taxonomy

/-- The errors thrown by the CSV codec (`RangeError` for the delimiter
check, `SyntaxError` for the structural ones), carrying the data that the
source interpolates into the message string. -/
inductive CSVError
  /-- `RangeError` of createCSV/createCSVStream/CSVParserCore: the option
  delimiter string does not have exactly one character. -/
  | invalidDelimiter (delimiter : List Char)
  /-- `SyntaxError`: end of input reached while inside a quoted field. -/
  | unterminatedQuote (rowNumber : Nat)
  /-- `SyntaxError`: empty header name(s) at the given 1-based positions. -/
  | emptyHeaders (positions : List Int)
  /-- `SyntaxError`: duplicated header names, first-duplicate order. -/
  | duplicateHeaders (names : List (List Char))
  /-- `SyntaxError`: strict-mode row overflow. -/
  | extraFields (rowNumber excess expected actual : Nat)
deriving DecidableEq, Repr

/-- The exact message text each error is thrown with in the source. -/
def renderCSVError : CSVError → List Char
  | .invalidDelimiter d =>
      chars "CSV delimiter must be a single character, got \"" ++ d ++ chars "\""
  | .unterminatedQuote n =>
      chars "CSV contains unterminated quoted field at row " ++ natChars n
  | .emptyHeaders ps =>
      chars "CSV header row contains empty column name(s) at position(s): " ++
        joinSep (chars ", ") (ps.map (fun p => natChars p.toNat))
  | .duplicateHeaders ds =>
      chars "CSV header row contains duplicate column name(s): " ++
        joinSep (chars ", ") ds
  | .extraFields n excess expected actual =>
      chars "CSV row " ++ natChars n ++ chars " has " ++ natChars excess ++
        chars " extra field(s): expected " ++ natChars expected ++
        chars " column(s), found " ++ natChars actual

-- #endregion

-- #region Encoder (createCSV, escapeCSVValue, streaming variants)

/-- A decoded CSV row / an encoder input record: an ordered association
list from column name to string value.  (JavaScript object with string
values; header validation guarantees distinct keys on the decoder side.) -/
abbrev CSVRec : Type := List (List Char × List Char)

/-- Options of `createCSV` / `createCSVStream` (source: `CSVCreateOptions`),
with the source defaults. -/
structure CSVCreateOptions where
  delimiter : List Char := chars ","
  addHeader : Bool := true
  quoteAll : Bool := false
  lineEnding : List Char := chars "\n"

/-- Model of `value.replaceAll(DOUBLE_QUOTE, ESCAPED_QUOTE)`: every
double-quote character becomes two of them, every other character is kept. -/
def replaceAllQuotes (s : List Char) : List Char :=
  s.flatMap (fun c => if c = '"' then ['"', '"'] else [c])

/-- Source: `escapeCSVValue` (part_005 lines 250-284).  `none` models a
nullish value (JavaScript `value == null`). -/
def escapeCSVValue (value : Option (List Char)) (delimiter : Char) (quoteAll : Bool) :
    List Char :=
  match value with
  | none => []
  | some s =>
    let hasQuote : Bool := decide ('"' ∈ s)
    let requiresQuoting : Bool :=
      quoteAll || decide (delimiter ∈ s) || hasQuote ||
        decide ('\n' ∈ s) || decide ('\r' ∈ s)
    if requiresQuoting then
      let escaped := if hasQuote then replaceAllQuotes s else s
      '"' :: (escaped ++ ['"'])
    else s

/-- Source: `encodeCSVRow` (part_005 lines 223-232); `row[key]` is the
association-list lookup, `undefined` being `none`. -/
def encodeCSVRow (row : CSVRec) (columns : List (List Char)) (delimiter : Char)
    (quoteAll : Bool) : List Char :=
  joinSep [delimiter] (columns.map (fun key => escapeCSVValue (row.lookup key) delimiter quoteAll))

/-- Source: `encodeCSVHeader` (part_005 lines 213-221). -/
def encodeCSVHeader (columns : List (List Char)) (delimiter : Char) (quoteAll : Bool) :
    List Char :=
  joinSep [delimiter] (columns.map (fun col => escapeCSVValue (some col) delimiter quoteAll))

/-- Source: `createCSV` (part_005 lines 83-130), explicit-columns form. -/
def createCSV (data : List CSVRec) (columns : List (List Char))
    (options : CSVCreateOptions) : Except CSVError (List Char) :=
  if columns = [] ∧ data = [] then .ok []
  else
    match options.delimiter with
    | [d] =>
      if options.addHeader then
        let header := encodeCSVHeader columns d options.quoteAll
        if data = [] then .ok header
        else
          .ok (header ++ options.lineEnding ++
            joinSep options.lineEnding (data.map (fun row => encodeCSVRow row columns d options.quoteAll)))
      else
        .ok (joinSep options.lineEnding (data.map (fun row => encodeCSVRow row columns d options.quoteAll)))
    | _ => .error (.invalidDelimiter options.delimiter)

/-- Source: `createCSVStream` (part_005 lines 153-178), modelled as the full
list of chunks the async generator yields. -/
def createCSVStream (data : List CSVRec) (columns : List (List Char))
    (options : CSVCreateOptions) : Except CSVError (List (List Char)) :=
  match options.delimiter with
  | [d] =>
    let headerChunks :=
      if options.addHeader then [encodeCSVHeader columns d options.quoteAll ++ options.lineEnding]
      else []
    .ok (headerChunks ++
      data.map (fun row => encodeCSVRow row columns d options.quoteAll ++ options.lineEnding))
  | _ => .error (.invalidDelimiter options.delimiter)

/-- Source: `createCSVAsync` (part_005 lines 196-207): concatenation of all
chunks of `createCSVStream`. -/
def createCSVAsync (data : List CSVRec) (columns : List (List Char))
    (options : CSVCreateOptions) : Except CSVError (List Char) :=
  (createCSVStream data columns options).map (fun cs => cs.foldr (· ++ ·) [])

-- #endregion

-- #region Decoder scanner (CSVParserCore.push character loop)

/-- The mutable scanning fields of `CSVParserCore` (part_005 lines 296-301)
and the identical local variables of the batch `parseCSV` in csv.ts
(lines 222-229). -/
structure ScanState where
  currentRow : List (List Char) := []
  currentRowQuotedFlags : List Bool := []
  currentField : List Char := []
  inQuotes : Bool := false
  isFieldQuoted : Bool := false
  rowNumber : Nat := 1
deriving DecidableEq, Repr

/-- A completed raw row: its fields, their quoted flags, and the 1-based
number of the row (the value of the row counter when the row completed). -/
structure RawRow where
  fields : List (List Char)
  flags : List Bool
  num : Nat
deriving DecidableEq, Repr

/-- Source: `appendField` (part_005 lines 388-393 / csv.ts lines 237-242). -/
def appendFieldS (s : ScanState) : ScanState :=
  { s with
    currentRow := s.currentRow ++ [s.currentField]
    currentRowQuotedFlags := s.currentRowQuotedFlags ++ [s.isFieldQuoted]
    currentField := []
    isFieldQuoted := false }

/-- The state-manipulation part of `appendRow`: append the pending field and
hand out the completed raw row, resetting the row buffers.  The row counter
is not touched here; the call sites that increment it do so themselves. -/
def emitRowS (s : ScanState) : ScanState × RawRow :=
  let s1 := appendFieldS s
  ({ s1 with currentRow := [], currentRowQuotedFlags := [] },
    ⟨s1.currentRow, s1.currentRowQuotedFlags, s.rowNumber⟩)

/-- One iteration of the character loop of `CSVParserCore.push` (part_005
lines 323-372), identical to the loop of csv.ts `parseCSV` (lines 253-301).
`next` is the lookahead character (`none` models the empty-string lookahead
at the end of a chunk).  Returns the new state, the completed row if this
character terminated one, and whether the lookahead character was consumed
(`i++` in the source). -/
def scanStep (delim : Char) (s : ScanState) (c : Char) (next : Option Char) :
    ScanState × Option RawRow × Bool :=
  if s.isFieldQuoted = true ∧ s.inQuotes = false ∧ c ≠ delim ∧ (c = ' ' ∨ c = '\t') then
    (s, none, false)
  else if c = '"' then
    if s.currentField = [] ∧ s.inQuotes = false then
      ({ s with inQuotes := true, isFieldQuoted := true }, none, false)
    else if s.inQuotes = true ∧ next = some '"' then
      ({ s with currentField := s.currentField ++ ['"'] }, none, true)
    else if s.inQuotes = true then
      ({ s with inQuotes := false }, none, false)
    else
      ({ s with currentField := s.currentField ++ [c] }, none, false)
  else if c = delim ∧ s.inQuotes = false then
    (appendFieldS s, none, false)
  else if (c = '\n' ∨ c = '\r') ∧ s.inQuotes = false then
    let p := emitRowS s
    ({ p.1 with rowNumber := s.rowNumber + 1 }, some p.2, decide (c = '\r' ∧ next = some '\n'))
  else
    ({ s with currentField := s.currentField ++ [c] }, none, false)

/-- A loop iteration together with the `i++` lookahead consumption: when the
previous iteration consumed the lookahead character (`skip`), the current
character is passed over without looking at it. -/
def scanSkipStep (delim : Char) (skip : Bool) (s : ScanState) (c : Char) (next : Option Char) :
    ScanState × Option RawRow × Bool :=
  if skip then (s, none, false)
  else scanStep delim s c next

/-- The character loop of `push` over one chunk: lookahead is taken from the
same chunk only (`nextCharacter = i + 1 < chunk.length ? chunk[i+1] : ''`).
Returns the final state and the raw rows completed, in order.  The `skip`
argument is true when the previous character consumed this one as its
lookahead; each chunk starts with `skip = false`. -/
def scanList (delim : Char) : Bool → ScanState → List Char → ScanState × List RawRow
  | _, s, [] => (s, [])
  | skip, s, c :: rest =>
    match scanSkipStep delim skip s c rest.head? with
    | (⟨row, flags, field, inQ, fieldQ, num⟩, emitted, consumedNext) =>
      match scanList delim consumedNext ⟨row, flags, field, inQ, fieldQ, num⟩ rest with
      | (s2, rows) => (s2, emitted.toList ++ rows)

-- #endregion

-- #region Decoder row processing

/-- Validated `CSVParserCore` configuration (delimiter already checked). -/
structure CoreOptions where
  delim : Char
  trim : Bool
  strict : Bool
deriving DecidableEq, Repr

/-- Options of `parseCSV` / `parseCSVStream`, with the source defaults. -/
structure ParseOptions where
  delimiter : List Char := chars ","
  trim : Bool := true
  strict : Bool := true

/-- The delimiter check of the `CSVParserCore` constructor (part_005
lines 311-315) and of csv.ts `parseCSV` (lines 231-235). -/
def validateParseOptions (o : ParseOptions) : Except CSVError CoreOptions :=
  match o.delimiter with
  | [d] => .ok ⟨d, o.trim, o.strict⟩
  | _ => .error (.invalidDelimiter o.delimiter)

/-- Source: `isFieldPopulated` (part_005 lines 462-465 / csv.ts 352-354). -/
def isFieldPopulated (trim : Bool) (field : List Char) (wasQuoted : Bool) : Bool :=
  if trim then (if wasQuoted then decide (field ≠ []) else decide (jsTrim field ≠ []))
  else decide (field ≠ [])

/-- The duplicate-collection loop of header validation (part_005
lines 435-441 / csv.ts 339-346): a JavaScript `Set` is an insertion-ordered
duplicate-free list. -/
def dupScan : List (List Char) → List (List Char) → List (List Char) → List (List Char)
  | [], _, dups => dups
  | h :: t, seen, dups =>
    if h ∈ seen then dupScan t seen (if h ∈ dups then dups else dups ++ [h])
    else dupScan t (seen ++ [h]) dups

/-- The `headers` local of `processHeaderRow`: with `trim` on, each header
is trimmed unless its field was quoted; with `trim` off the raw row is
used as is (part_005 lines 416-420). -/
def headerNames (trim : Bool) (headerRow : List (List Char)) (headerQuotedFlags : List Bool) :
    List (List Char) :=
  if trim then
    mapWithIndex (fun i h => if headerQuotedFlags.getD i false then h else jsTrim h) 0 headerRow
  else headerRow

/-- Source: `CSVParserCore.processHeaderRow` (part_005 lines 412-450),
identical to the header validation of csv.ts `parseCSV` (lines 322-350). -/
def processHeaderRow (trim : Bool) (headerRow : List (List Char)) (headerQuotedFlags : List Bool) :
    Except CSVError (List (List Char)) :=
  let headers := headerNames trim headerRow headerQuotedFlags
  let positions :=
    ((mapWithIndex (fun i h => if h = [] then (i : Int) + 1 else -1) 0 headers).filter
      (fun p => decide (0 < p)))
  if positions ≠ [] then .error (.emptyHeaders positions)
  else
    let duplicateHeaderNames := dupScan headers [] []
    if duplicateHeaderNames ≠ [] then .error (.duplicateHeaders duplicateHeaderNames)
    else .ok headers

/-- The `containsNonEmptyOverflow` test of the strict extra-field check:
some field beyond the header count is populated (part_005 lines 478-482). -/
def overflowPopulated (trim : Bool) (headers fieldValues : List (List Char))
    (quotedFlags : List Bool) : Bool :=
  (mapWithIndex (fun i f => isFieldPopulated trim f
    ((quotedFlags.drop headers.length).getD i false)) 0 (fieldValues.drop headers.length)).any id

/-- Source: `CSVParserCore.processDataRow` (part_005 lines 452-506),
identical to the filter/map data-row processing of csv.ts (lines 359-393).
`.ok none` is a skipped (blank) row; the row number is passed in by the
caller (the core passes its counter, the batch parser passes index + 2). -/
def processDataRow (trim strict : Bool) (headers : List (List Char))
    (fieldValues : List (List Char)) (quotedFlags : List Bool) (rowNumber : Nat) :
    Except CSVError (Option CSVRec) :=
  let hasAnyPopulatedField :=
    (mapWithIndex (fun i f => isFieldPopulated trim f (quotedFlags.getD i false)) 0 fieldValues).any id
  if ¬1 < fieldValues.length ∧ hasAnyPopulatedField = false then .ok none
  else if headers.length < fieldValues.length ∧ strict = true ∧
      overflowPopulated trim headers fieldValues quotedFlags = true then
    .error (.extraFields rowNumber (fieldValues.length - headers.length)
      headers.length fieldValues.length)
  else
    .ok (some (mapWithIndex (fun i h =>
      (h,
        if trim = true ∧ quotedFlags.getD i false = false then jsTrim (fieldValues.getD i [])
        else fieldValues.getD i [])) 0 headers))

-- #endregion

-- #region Decoder core driver (CSVParserCore), parseCSV, parseCSVStream

/-- The full `CSVParserCore` instance state: scanner fields plus the
finalized headers and the records handed to `onRow` so far (in order). -/
structure CoreState where
  scan : ScanState := {}
  headers : Option (List (List Char)) := none
  recs : List CSVRec := []
deriving DecidableEq, Repr

/-- Source: `CSVParserCore.appendRow` processing step (part_005
lines 395-410): the first completed row is the header row, later ones are
data rows; the completed row carries its own row number. -/
def coreProcessRow (o : CoreOptions) (st : CoreState) (r : RawRow) :
    Except CSVError CoreState :=
  match st.headers with
  | none =>
    (processHeaderRow o.trim r.fields r.flags).map (fun hs => { st with headers := some hs })
  | some hs =>
    (processDataRow o.trim o.strict hs r.fields r.flags r.num).map
      (fun res =>
        match res with
        | none => st
        | some rec => { st with recs := st.recs ++ [rec] })

/-- Source: `CSVParserCore.push` (part_005 lines 323-372): scan the chunk
(lookahead confined to the chunk), processing each row as it completes. -/
def corePushChunk (o : CoreOptions) (st : CoreState) (chunk : List Char) :
    Except CSVError CoreState :=
  match scanList o.delim false st.scan chunk with
  | (s1, rows) => rows.foldlM (coreProcessRow o) { st with scan := s1 }

/-- Source: `CSVParserCore.finish` (part_005 lines 374-386). -/
def coreFinish (o : CoreOptions) (st : CoreState) : Except CSVError CoreState :=
  if st.scan.inQuotes = true then .error (.unterminatedQuote st.scan.rowNumber)
  else if st.scan.currentField ≠ [] ∨ st.scan.currentRow ≠ [] then
    match emitRowS st.scan with
    | (s1, r) => coreProcessRow o { st with scan := { s1 with rowNumber := s1.rowNumber + 1 } } r
  else .ok st

/-- A whole parser-core run: a fresh instance, `push` per chunk, `finish`. -/
def runCore (o : CoreOptions) (chunks : List (List Char)) : Except CSVError CoreState :=
  (chunks.foldlM (corePushChunk o) {}).bind (coreFinish o)

/-- Source: `parseCSV` of part_005 (lines 523-552), built on the parser
core.  `none` input models `null`/`undefined`. -/
def parseCSV (csv : Option (List Char)) (options : ParseOptions) :
    Except CSVError (List CSVRec) :=
  match csv with
  | none => .ok []
  | some s =>
    if jsTrim s = [] then .ok []
    else
      (validateParseOptions options).bind (fun o => (runCore o [s]).map (fun st => st.recs))

/-- The chunk loop of `parseCSVStream`: after each successful `push` the
queue is drained, so records of chunks before a failing one are yielded but
records enqueued inside the failing chunk are not. -/
def streamGo (o : CoreOptions) (st : CoreState) : List (List Char) → List CSVRec × Option CSVError
  | [] =>
    match coreFinish o st with
    | .ok st1 => (st1.recs, none)
    | .error e => (st.recs, some e)
  | c :: cs =>
    match corePushChunk o st c with
    | .ok st1 => streamGo o st1 cs
    | .error e => (st.recs, some e)

/-- Source: `parseCSVStream` (part_005 lines 569-594), modelled as the list
of records the async generator yields followed by the error it ends with,
if any. -/
def parseCSVStream (chunks : List (List Char)) (options : ParseOptions) :
    List CSVRec × Option CSVError :=
  match validateParseOptions options with
  | .error e => ([], some e)
  | .ok o => streamGo o {} chunks

-- #endregion

-- #region Batch decoder of src/src/csv.ts

/-- The data-row pass of csv.ts `parseCSV` (lines 359-393): filter of blank
rows and map with the strict overflow check, the error row number being
`rowIndex + 2` for the row at `rowIndex` of the data-row array. -/
def batchProcessData (trim strict : Bool) (headers : List (List Char)) :
    Nat → List RawRow → Except CSVError (List CSVRec)
  | _, [] => .ok []
  | rowIndex, r :: rs =>
    match processDataRow trim strict headers r.fields r.flags (rowIndex + 2) with
    | .error e => .error e
    | .ok none => batchProcessData trim strict headers (rowIndex + 1) rs
    | .ok (some rec) =>
      (batchProcessData trim strict headers (rowIndex + 1) rs).map (fun out => rec :: out)

/-- Source: `parseCSV` of src/src/csv.ts (lines 201-394): scan the whole
input collecting raw rows, flush the leftover row, then check the quote
state, then return `[]` when there is at most one row, then validate the
header row and process the data rows. -/
def batchParseCSV (csv : Option (List Char)) (options : ParseOptions) :
    Except CSVError (List CSVRec) :=
  match csv with
  | none => .ok []
  | some s =>
    if jsTrim s = [] then .ok []
    else
      match validateParseOptions options with
      | .error e => .error e
      | .ok o =>
        match scanList o.delim false {} s with
        | (fin, rows) =>
          let withLast :=
            if fin.currentField ≠ [] ∨ fin.currentRow ≠ [] then
              match emitRowS fin with
              | (fin1, r) => (fin1, rows ++ [r])
            else (fin, rows)
          if withLast.1.inQuotes = true then
            .error (.unterminatedQuote withLast.1.rowNumber)
          else if withLast.2.length ≤ 1 then .ok []
          else
            match withLast.2 with
            | [] => .ok []
            | headerRow :: dataRows =>
              (processHeaderRow o.trim headerRow.fields headerRow.flags).bind
                (fun headers => batchProcessData o.trim o.strict headers 0 dataRows)

-- #endregion

-- #region Specification-side predicates

/-- A character the scanner copies verbatim into the current field: not a
double quote, not the delimiter, not a line terminator. -/
def CleanChar (delim c : Char) : Prop :=
  c ≠ '"' ∧ c ≠ delim ∧ c ≠ '\n' ∧ c ≠ '\r'

/-- A string of verbatim characters only. -/
def CleanField (delim : Char) (f : List Char) : Prop := ∀ c ∈ f, CleanChar delim c

instance (delim c : Char) : Decidable (CleanChar delim c) := by
  unfold CleanChar
  infer_instance

instance (delim : Char) (f : List Char) : Decidable (CleanField delim f) := by
  unfold CleanField
  infer_instance

/-- The raw rows of a scan carry consecutive row numbers starting at `n`. -/
def numberedFrom : Nat → List RawRow → Prop
  | _, [] => True
  | n, r :: rs => r.num = n ∧ numberedFrom (n + 1) rs

/-- Occurrence count of a name in a list of names. -/
def countEq (x : List Char) : List (List Char) → Nat
  | [] => 0
  | y :: t => countEq x t + (if y = x then 1 else 0)

/-- A fresh scanner state at row number `n` (row buffers empty, outside
quotes). -/
def freshScan (n : Nat) : ScanState := ⟨[], [], [], false, false, n⟩

/-- The raw rows produced by scanning quote-free rows of verbatim fields:
row `i` (absolute index, starting at `n`) carries its fields, all-unquoted
flags, and row number `i`. -/
def cleanRawRows (n : Nat) (rss : List (List (List Char))) : List RawRow :=
  mapWithIndex (fun i fs => ⟨fs, List.replicate fs.length false, i⟩) n rss

/-- An error of the header validation step. -/
def HeaderError : CSVError → Prop
  | .emptyHeaders _ => True
  | .duplicateHeaders _ => True
  | _ => False

/-- The invariant of a running parser core: no record is emitted before
the headers are finalized, and every emitted record is keyed exactly by
the finalized headers. -/
def GoodState (st : CoreState) : Prop :=
  (st.headers = none → st.recs = []) ∧
  (∀ hs, st.headers = some hs → ∀ r ∈ st.recs, r.map Prod.fst = hs)

-- #endregion

-- #region Helper lemmas

theorem replaceAllQuotes_of_not_mem {s : List Char} (h : '"' ∉ s) :
    replaceAllQuotes s = s := by
  induction s with
  | nil => rfl
  | cons c cs ih =>
    simp only [List.mem_cons, not_or] at h
    simp [replaceAllQuotes, List.flatMap_cons, Ne.symm h.1]
    exact ih h.2

theorem validateParseOptions_err {o : ParseOptions} (h : o.delimiter.length ≠ 1) :
    validateParseOptions o = .error (.invalidDelimiter o.delimiter) := by
  unfold validateParseOptions
  rcases hd : o.delimiter with _ | ⟨d, _ | ⟨e, rest⟩⟩ <;> simp_all

theorem validateParseOptions_ok {o : ParseOptions} {d : Char} (h : o.delimiter = [d]) :
    validateParseOptions o = .ok ⟨d, o.trim, o.strict⟩ := by
  unfold validateParseOptions
  rw [h]

-- #endregion

-- #region C7: escaper contract

/-- C7: `escapeCSVValue` returns the empty string for a nullish value;
otherwise the result is wrapped in double quotes exactly when `quoteAll` is
set or the string contains the delimiter, a double quote, a line feed or a
carriage return; when wrapped, every embedded double quote is doubled and
no other character is altered (the body is the characterwise quote
doubling of the input); when not wrapped the string is returned unchanged;
the function has no error conditions, and concretely
`escapeCSVValue('a,"b"\nc') = '"a,""b""\nc"'`. -/
theorem escapeCSVValue_contract :
    (∀ (delim : Char) (quoteAll : Bool), escapeCSVValue none delim quoteAll = []) ∧
    (∀ (s : List Char) (delim : Char) (quoteAll : Bool),
      (quoteAll = true ∨ delim ∈ s ∨ '"' ∈ s ∨ '\n' ∈ s ∨ '\r' ∈ s →
        escapeCSVValue (some s) delim quoteAll = '"' :: (replaceAllQuotes s ++ ['"'])) ∧
      (¬(quoteAll = true ∨ delim ∈ s ∨ '"' ∈ s ∨ '\n' ∈ s ∨ '\r' ∈ s) →
        escapeCSVValue (some s) delim quoteAll = s)) ∧
    (∀ s : List Char, replaceAllQuotes s =
      s.flatMap (fun c => if c = '"' then ['"', '"'] else [c])) ∧
    escapeCSVValue (some (chars "a,\"b\"\nc")) ',' false = chars "\"a,\"\"b\"\"\nc\"" := by
  refine ⟨fun _ _ => rfl, fun s delim quoteAll => ?_, fun _ => rfl, by decide⟩
  constructor <;> intro h <;> unfold escapeCSVValue <;>
    by_cases hqa : quoteAll = true <;> by_cases h1 : delim ∈ s <;> by_cases h2 : '"' ∈ s <;>
      by_cases h3 : '\n' ∈ s <;> by_cases h4 : '\r' ∈ s <;>
      simp_all [replaceAllQuotes_of_not_mem]

/-- Witness for C7 at a concrete input. -/
theorem escapeCSVValue_contract_witness :
    escapeCSVValue (some (chars "a b")) ',' false = chars "a b" :=
  (escapeCSVValue_contract.2.1 (chars "a b") ',' false).2 (by decide)

-- #endregion

-- #region C6: delimiter validation

/-- C6 (amended): a delimiter option that is not exactly one character
makes `parseCSV` (on any input the early nullish/blank guard does not
swallow), `parseCSVStream` (on every chunk list), `createCSV` (except the
empty-columns-and-empty-data early return), `createCSVStream` and
`createCSVAsync` (on all inputs) fail with the range error naming the
offending delimiter, before any input is scanned. -/
theorem delimiter_validation_contract :
    (∀ (s : List Char) (o : ParseOptions), o.delimiter.length ≠ 1 → jsTrim s ≠ [] →
      parseCSV (some s) o = .error (.invalidDelimiter o.delimiter)) ∧
    (∀ (chunks : List (List Char)) (o : ParseOptions), o.delimiter.length ≠ 1 →
      parseCSVStream chunks o = ([], some (.invalidDelimiter o.delimiter))) ∧
    (∀ (data : List CSVRec) (columns : List (List Char)) (o : CSVCreateOptions),
      o.delimiter.length ≠ 1 → ¬(columns = [] ∧ data = []) →
      createCSV data columns o = .error (.invalidDelimiter o.delimiter)) ∧
    (∀ (data : List CSVRec) (columns : List (List Char)) (o : CSVCreateOptions),
      o.delimiter.length ≠ 1 →
      createCSVStream data columns o = .error (.invalidDelimiter o.delimiter)) ∧
    (∀ (data : List CSVRec) (columns : List (List Char)) (o : CSVCreateOptions),
      o.delimiter.length ≠ 1 →
      createCSVAsync data columns o = .error (.invalidDelimiter o.delimiter)) := by
  have hstream : ∀ (data : List CSVRec) (columns : List (List Char)) (o : CSVCreateOptions),
      o.delimiter.length ≠ 1 →
      createCSVStream data columns o = .error (.invalidDelimiter o.delimiter) := by
    intro data columns o h
    unfold createCSVStream
    rcases hd : o.delimiter with _ | ⟨d, _ | ⟨e, rest⟩⟩ <;> simp_all
  refine ⟨?_, ?_, ?_, hstream, ?_⟩
  · intro s o h1 h2
    simp only [parseCSV]
    rw [if_neg h2, validateParseOptions_err h1]
    rfl
  · intro chunks o h
    unfold parseCSVStream
    rw [validateParseOptions_err h]
  · intro data columns o h1 h2
    unfold createCSV
    rw [if_neg h2]
    rcases hd : o.delimiter with _ | ⟨d, _ | ⟨e, rest⟩⟩ <;> simp_all
  · intro data columns o h
    unfold createCSVAsync
    rw [hstream data columns o h]
    rfl

/-- C6 counterexample: the claim demands the delimiter error also for
empty and nullish input and for empty record sets, but `parseCSV` returns
`[]` for empty or nullish input before looking at the delimiter, and
`createCSV` returns the empty string for empty columns plus empty data
before looking at the delimiter. -/
theorem delimiter_validation_counterexample :
    parseCSV (some (chars "")) { delimiter := chars "ab" } = .ok [] ∧
    parseCSV none { delimiter := chars "ab" } = .ok [] ∧
    createCSV [] [] { delimiter := chars "ab" } = .ok [] := by
  exact ⟨by decide, rfl, by decide⟩

/-- Witness for C6 at a concrete input. -/
theorem delimiter_validation_witness :
    parseCSV (some (chars "x")) { delimiter := chars "ab" } =
      .error (.invalidDelimiter (chars "ab")) :=
  delimiter_validation_contract.1 (chars "x") { delimiter := chars "ab" } (by decide) (by decide)

-- #endregion

-- #region C9: async encoder trailing line ending

theorem foldr_append_map_lineEnding (le : List Char) (lines : List (List Char))
    (h : lines ≠ []) :
    (lines.map (fun l => l ++ le)).foldr (· ++ ·) [] = joinSep le lines ++ le := by
  induction lines with
  | nil => exact absurd rfl h
  | cons x xs ih =>
    cases xs with
    | nil => simp [joinSep]
    | cons y ys =>
      simp only [List.map_cons, List.foldr_cons] at ih ⊢
      rw [ih (by simp)]
      simp [joinSep, List.append_assoc]

/-- C9 (amended): whenever the delimiter is a single character and either a
header is emitted or the record sequence is nonempty, the collected string
of `createCSVAsync` is exactly the synchronous `createCSV` output followed
by one `lineEnding`; when `addHeader` is false and there are no records,
both forms return the empty string instead. -/
theorem createCSVAsync_trailing_lineEnding (data : List CSVRec) (columns : List (List Char))
    (o : CSVCreateOptions) (d : Char) (hd : o.delimiter = [d])
    (h : o.addHeader = true ∨ data ≠ []) :
    ∃ s, createCSV data columns o = .ok s ∧
      createCSVAsync data columns o = .ok (s ++ o.lineEnding) := by
  unfold createCSVAsync createCSVStream createCSV
  rw [hd]
  cases data with
  | nil =>
    have hah : o.addHeader = true := by
      rcases h with h | h
      · exact h
      · exact absurd rfl h
    rw [hah]
    by_cases hc : columns = []
    · subst hc
      refine ⟨[], ?_, ?_⟩
      · simp
      · simp [encodeCSVHeader, joinSep, Except.map]
    · refine ⟨encodeCSVHeader columns d o.quoteAll, ?_, ?_⟩
      · simp [hc]
      · simp [Except.map]
  | cons r rest =>
    have hne : ¬(columns = [] ∧ r :: rest = []) := by simp
    rw [if_neg hne]
    have key : (List.map (fun row => encodeCSVRow row columns d o.quoteAll ++ o.lineEnding)
          (r :: rest)).foldr (· ++ ·) [] =
        joinSep o.lineEnding ((r :: rest).map (fun row => encodeCSVRow row columns d o.quoteAll)) ++
          o.lineEnding := by
      have hmap : (List.map (fun row => encodeCSVRow row columns d o.quoteAll ++ o.lineEnding)
          (r :: rest)) =
          ((r :: rest).map (fun row => encodeCSVRow row columns d o.quoteAll)).map
            (fun l => l ++ o.lineEnding) := by
        simp [List.map_map, Function.comp]
      rw [hmap]
      exact foldr_append_map_lineEnding o.lineEnding
        ((r :: rest).map (fun row => encodeCSVRow row columns d o.quoteAll)) (by simp)
    cases hah : o.addHeader with
    | true =>
      refine ⟨encodeCSVHeader columns d o.quoteAll ++ o.lineEnding ++
        joinSep o.lineEnding ((r :: rest).map (fun row => encodeCSVRow row columns d o.quoteAll)),
        by simp, ?_⟩
      simp only [if_true, Except.map, List.singleton_append, List.foldr_cons, key]
      simp [List.append_assoc]
    | false =>
      refine ⟨joinSep o.lineEnding ((r :: rest).map (fun row => encodeCSVRow row columns d o.quoteAll)),
        by simp, ?_⟩
      simp only [Except.map]
      rw [if_neg (show ¬(false = true) by decide), List.nil_append, key]

/-- C9 counterexample: with `addHeader := false` and no records the async
collector returns the empty string, not the synchronous result followed by
a line ending. -/
theorem createCSVAsync_trailing_counterexample :
    createCSVAsync [] [chars "a"] { addHeader := false } = .ok [] ∧
    (createCSV [] [chars "a"] { addHeader := false }).map
      (fun s => s ++ ({ addHeader := false } : CSVCreateOptions).lineEnding) =
      .ok (chars "\n") ∧
    (chars "\n" : List Char) ≠ [] := by decide

/-- Witness for C9 at a concrete input. -/
theorem createCSVAsync_trailing_witness :
    ∃ s, createCSV [[(chars "a", chars "1")]] [chars "a"] {} = .ok s ∧
      createCSVAsync [[(chars "a", chars "1")]] [chars "a"] {} =
        .ok (s ++ ({} : CSVCreateOptions).lineEnding) :=
  createCSVAsync_trailing_lineEnding _ _ _ ',' rfl (.inl rfl)

-- #endregion

-- #region C1: chunk-boundary sensitivity of the streaming decoder

/-- C1: the documented example chunking does agree with the batch parse,
but chunk-boundary insensitivity fails in general, contradicting the
documentation of `parseCSVStream` ("the parser handles quotes and newlines
correctly across chunk boundaries"): when the escaped quote `""` is split
across two chunks, the streaming decoder closes the quote at the chunk end
(its lookahead is the empty string there) and then treats the two quotes of
the next chunk as literal characters, so the streamed parse of
`['h\n"a"', '"b"']` differs from the batch parse of the concatenation. -/
theorem chunk_boundary_insensitivity_bug :
    (parseCSVStream [chars "name,age\nJo", chars "hn,30\nJane,25"] {} =
      ([[(chars "name", chars "John"), (chars "age", chars "30")],
        [(chars "name", chars "Jane"), (chars "age", chars "25")]], none)) ∧
    (parseCSV (some (chars "name,age\nJohn,30\nJane,25")) {} =
      .ok [[(chars "name", chars "John"), (chars "age", chars "30")],
           [(chars "name", chars "Jane"), (chars "age", chars "25")]]) ∧
    (parseCSVStream [chars "h\n\"a\"", chars "\"b\""] {} =
      ([[(chars "h", chars "a\"b\"")]], none)) ∧
    (parseCSV (some (chars "h\n\"a\"\"b\"")) {} = .ok [[(chars "h", chars "a\"b")]]) ∧
    (chars "h\n\"a\"" ++ chars "\"b\"" = chars "h\n\"a\"\"b\"") ∧
    (chars "a\"b\"" ≠ chars "a\"b") := by
  exact ⟨by decide, by decide, by decide, by decide, by decide, by decide⟩

-- #endregion

-- #region Scanner lemmas inside quotes, C5

theorem scanStep_inQuotes {d : Char} {s : ScanState} {c : Char} {next : Option Char}
    (hq : s.inQuotes = true) (hc : c ≠ '"') :
    scanStep d s c next = ({ s with currentField := s.currentField ++ [c] }, none, false) := by
  unfold scanStep
  rw [if_neg (by simp [hq]), if_neg hc, if_neg (by simp [hq]), if_neg (by simp [hq])]

theorem scanList_inQuotes {d : Char} (chunk : List Char) {s : ScanState}
    (hq : s.inQuotes = true) (hc : ∀ c ∈ chunk, c ≠ '"') :
    scanList d false s chunk = ({ s with currentField := s.currentField ++ chunk }, []) := by
  induction chunk generalizing s with
  | nil => simp [scanList]
  | cons c rest ih =>
    have h1 := @scanStep_inQuotes d s c rest.head? hq (hc c (by simp))
    have h2 := ih (s := { s with currentField := s.currentField ++ [c] }) hq
      (fun x hx => hc x (by simp [hx]))
    simp only [scanList, scanSkipStep, if_neg (show ¬(false = true) by decide), h1, h2]
    simp [List.append_assoc]

/-- C5: if quoted mode is still open when the input is exhausted, the parse
fails with the unterminated-quoted-field error carrying the row number of
the row in which the quote was opened: from any core state inside quotes,
scanning any remainder free of double quotes (it may contain newlines and
delimiters) and finishing yields exactly that error with the current row
number unchanged.  Concretely, the mid-field shape `"John"",30` fails with
the same unterminated error at row 1, a newline inside the open quote does
not advance the reported row number, and the message text names the row. -/
theorem unterminated_quote_contract :
    (∀ (o : CoreOptions) (st : CoreState) (chunk : List Char),
      st.scan.inQuotes = true → (∀ c ∈ chunk, c ≠ '"') →
      (corePushChunk o st chunk).bind (coreFinish o) =
        .error (.unterminatedQuote st.scan.rowNumber)) ∧
    parseCSV (some (chars "\"John\"\",30")) {} = .error (.unterminatedQuote 1) ∧
    parseCSV (some (chars "a\n\"x\nyy")) {} = .error (.unterminatedQuote 2) ∧
    renderCSVError (.unterminatedQuote 1) =
      chars "CSV contains unterminated quoted field at row 1" := by
  refine ⟨?_, by decide, by decide, by decide⟩
  intro o st chunk hq hc
  unfold corePushChunk
  rw [scanList_inQuotes chunk hq hc]
  simp only [List.foldlM]
  unfold coreFinish
  simp [hq, Except.bind, pure, Except.pure]

/-- Witness for C5 at a concrete state and chunk. -/
theorem unterminated_quote_witness :
    (corePushChunk ⟨',', true, true⟩
        { scan := { inQuotes := true, isFieldQuoted := true, rowNumber := 3 } }
        (chars "ab\ncd")).bind (coreFinish ⟨',', true, true⟩) =
      .error (.unterminatedQuote 3) :=
  unterminated_quote_contract.1 ⟨',', true, true⟩
    { scan := { inQuotes := true, isFieldQuoted := true, rowNumber := 3 } }
    (chars "ab\ncd") rfl (by decide)

-- #endregion

-- #region C3: strict-mode overflow

theorem map_fst_mapWithIndex (g : Nat → α → β) :
    ∀ (n : Nat) (l : List α), (mapWithIndex (fun i a => (a, g i a)) n l).map Prod.fst = l
  | _, [] => rfl
  | n, a :: as => by
    simp only [mapWithIndex, List.map_cons]
    rw [map_fst_mapWithIndex g (n + 1) as]

/-- C3: a data row with more raw fields than there are (nonempty,
validated) headers fails iff `strict` is set and at least one overflow
field is populated (each overflow field judged with its own quoted flag
and the trim setting); any such error carries exactly the row number, the
excess count, the expected column count and the actual field count; when
strict is off or every overflow field is empty, the row yields a record
whose keys are exactly the headers, the extra fields being dropped.
Concretely, `parseCSV('name,age\nJohn,30,Engineer')` fails with the error
rendered as "CSV row 2 has 1 extra field(s): expected 2 column(s), found
3"; the same input parses with `strict := false`, dropping the overflow;
and an empty overflow field raises nothing even in strict mode. -/
theorem strict_overflow_contract :
    (∀ (trim strict : Bool) (headers fieldValues : List (List Char)) (quotedFlags : List Bool)
      (rowNumber : Nat), headers ≠ [] → headers.length < fieldValues.length →
      (processDataRow trim strict headers fieldValues quotedFlags rowNumber =
          .error (.extraFields rowNumber (fieldValues.length - headers.length)
            headers.length fieldValues.length) ↔
        strict = true ∧ overflowPopulated trim headers fieldValues quotedFlags = true) ∧
      (∀ e, processDataRow trim strict headers fieldValues quotedFlags rowNumber = .error e →
        e = .extraFields rowNumber (fieldValues.length - headers.length)
          headers.length fieldValues.length) ∧
      (¬(strict = true ∧ overflowPopulated trim headers fieldValues quotedFlags = true) →
        ∃ rec, processDataRow trim strict headers fieldValues quotedFlags rowNumber =
            .ok (some rec) ∧ rec.map Prod.fst = headers)) ∧
    parseCSV (some (chars "name,age\nJohn,30,Engineer")) {} = .error (.extraFields 2 1 2 3) ∧
    renderCSVError (.extraFields 2 1 2 3) =
      chars "CSV row 2 has 1 extra field(s): expected 2 column(s), found 3" ∧
    parseCSV (some (chars "name,age\nJohn,30,Engineer")) { strict := false } =
      .ok [[(chars "name", chars "John"), (chars "age", chars "30")]] ∧
    parseCSV (some (chars "name,age\nJohn,30,")) {} =
      .ok [[(chars "name", chars "John"), (chars "age", chars "30")]] := by
  refine ⟨?_, by decide, by decide, by decide, by decide⟩
  intro trim strict headers fieldValues quotedFlags rowNumber hne hlt
  have hskip : ¬(¬1 < fieldValues.length ∧
      ((mapWithIndex (fun i f => isFieldPopulated trim f (quotedFlags.getD i false))
        0 fieldValues).any id) = false) := by
    intro hcon
    have : 0 < headers.length := List.length_pos.mpr hne
    omega
  unfold processDataRow
  rw [if_neg hskip]
  by_cases hs : strict = true ∧ overflowPopulated trim headers fieldValues quotedFlags = true
  · rw [if_pos ⟨hlt, hs.1, hs.2⟩]
    refine ⟨by simp [hs], fun e he => by simpa using he.symm, fun hcon => absurd hs hcon⟩
  · have hcond : ¬(headers.length < fieldValues.length ∧ strict = true ∧
        overflowPopulated trim headers fieldValues quotedFlags = true) := by
      intro hcon
      exact hs ⟨hcon.2.1, hcon.2.2⟩
    rw [if_neg hcond]
    refine ⟨by simp [hs], fun e he => by simp at he, fun _ => ?_⟩
    exact ⟨_, rfl, map_fst_mapWithIndex _ 0 headers⟩

/-- Witness for C3 at concrete rows. -/
theorem strict_overflow_witness :
    processDataRow true true [chars "a"] [chars "x", chars "y"] [false, false] 2 =
      .error (.extraFields 2 1 1 2) := by
  have h := (strict_overflow_contract.1 true true [chars "a"] [chars "x", chars "y"]
    [false, false] 2 (by decide) (by decide)).1.mpr ⟨rfl, by decide⟩
  simpa using h

-- #endregion

-- #region Core-state invariant propagation

theorem processDataRow_keys {trim strict : Bool} {headers fieldValues : List (List Char)}
    {quotedFlags : List Bool} {rowNumber : Nat} {rec : CSVRec}
    (h : processDataRow trim strict headers fieldValues quotedFlags rowNumber = .ok (some rec)) :
    rec.map Prod.fst = headers := by
  simp only [processDataRow] at h
  split at h
  · simp at h
  · split at h
    · simp at h
    · simp only [Except.ok.injEq, Option.some.injEq] at h
      rw [← h]
      exact map_fst_mapWithIndex _ 0 headers

theorem processDataRow_error_not_header {trim strict : Bool}
    {headers fieldValues : List (List Char)} {quotedFlags : List Bool} {rowNumber : Nat}
    {e : CSVError}
    (h : processDataRow trim strict headers fieldValues quotedFlags rowNumber = .error e) :
    ¬HeaderError e := by
  simp only [processDataRow] at h
  split at h
  · simp at h
  · split at h
    · simp only [Except.error.injEq] at h
      intro hc
      rw [← h] at hc
      exact hc
    · simp at h

theorem coreProcessRow_eq_none {o : CoreOptions} {st : CoreState} {r : RawRow}
    (hh : st.headers = none) :
    coreProcessRow o st r = (processHeaderRow o.trim r.fields r.flags).map
      (fun hs => { st with headers := some hs }) := by
  unfold coreProcessRow
  rw [hh]

theorem coreProcessRow_eq_some {o : CoreOptions} {st : CoreState} {r : RawRow}
    {hs : List (List Char)} (hh : st.headers = some hs) :
    coreProcessRow o st r = (processDataRow o.trim o.strict hs r.fields r.flags r.num).map
      (fun res =>
        match res with
        | none => st
        | some rec => { st with recs := st.recs ++ [rec] }) := by
  unfold coreProcessRow
  rw [hh]

theorem coreProcessRow_ok_cases {o : CoreOptions} {st st' : CoreState} {r : RawRow}
    (h : coreProcessRow o st r = .ok st') :
    (∃ hs, st.headers = none ∧ processHeaderRow o.trim r.fields r.flags = .ok hs ∧
      st' = { st with headers := some hs }) ∨
    (∃ hs, st.headers = some hs ∧
      ((processDataRow o.trim o.strict hs r.fields r.flags r.num = .ok none ∧ st' = st) ∨
       (∃ rec, processDataRow o.trim o.strict hs r.fields r.flags r.num = .ok (some rec) ∧
         st' = { st with recs := st.recs ++ [rec] }))) := by
  cases hh : st.headers with
  | none =>
    rw [coreProcessRow_eq_none hh] at h
    cases hph : processHeaderRow o.trim r.fields r.flags with
    | error e => rw [hph] at h; simp [Except.map] at h
    | ok hs =>
      rw [hph] at h
      simp only [Except.map, Except.ok.injEq] at h
      exact .inl ⟨hs, rfl, rfl, h.symm⟩
  | some hs =>
    rw [coreProcessRow_eq_some hh] at h
    cases hpd : processDataRow o.trim o.strict hs r.fields r.flags r.num with
    | error e => rw [hpd] at h; simp [Except.map] at h
    | ok res =>
      rw [hpd] at h
      cases res with
      | none =>
        simp only [Except.map, Except.ok.injEq] at h
        exact .inr ⟨hs, rfl, .inl ⟨hpd, h.symm⟩⟩
      | some rec =>
        simp only [Except.map, Except.ok.injEq] at h
        exact .inr ⟨hs, rfl, .inr ⟨rec, hpd, by rw [← hh]; exact h.symm⟩⟩

theorem coreProcessRow_error_cases {o : CoreOptions} {st : CoreState} {r : RawRow}
    {e : CSVError} (h : coreProcessRow o st r = .error e) :
    (st.headers = none ∧ processHeaderRow o.trim r.fields r.flags = .error e) ∨
    (∃ hs, st.headers = some hs ∧
      processDataRow o.trim o.strict hs r.fields r.flags r.num = .error e) := by
  cases hh : st.headers with
  | none =>
    rw [coreProcessRow_eq_none hh] at h
    cases hph : processHeaderRow o.trim r.fields r.flags with
    | error e2 => rw [hph] at h; simp only [Except.map, Except.error.injEq] at h; subst h; exact .inl ⟨rfl, rfl⟩
    | ok hs => rw [hph] at h; simp [Except.map] at h
  | some hs =>
    rw [coreProcessRow_eq_some hh] at h
    cases hpd : processDataRow o.trim o.strict hs r.fields r.flags r.num with
    | error e2 => rw [hpd] at h; simp only [Except.map, Except.error.injEq] at h; subst h; exact .inr ⟨hs, rfl, hpd⟩
    | ok res => rw [hpd] at h; simp [Except.map] at h

theorem coreProcessRow_good {o : CoreOptions} {st st' : CoreState} {r : RawRow}
    (hg : GoodState st) (h : coreProcessRow o st r = .ok st') :
    GoodState st' ∧ (∀ hs, st.headers = some hs → st'.headers = some hs) ∧
    st.recs.isPrefixOf st'.recs = true := by
  rcases coreProcessRow_ok_cases h with ⟨hs, hnone, _, hst⟩ | ⟨hs, hsome, hcase⟩
  · subst hst
    have hrecs : st.recs = [] := hg.1 hnone
    refine ⟨⟨fun hc => by simp at hc, fun hs2 hh2 r2 hr2 => ?_⟩, fun hs2 hh2 => ?_, by simp⟩
    · rw [hrecs] at hr2
      simp at hr2
    · rw [hnone] at hh2
      exact absurd hh2 (by simp)
  · rcases hcase with ⟨hpd, hst⟩ | ⟨rec, hpd, hst⟩
    · subst hst
      exact ⟨hg, fun _ h => h, by simp [List.isPrefixOf_iff_prefix]⟩
    · subst hst
      refine ⟨⟨fun hc => by simp_all, fun hs2 hh2 r2 hr2 => ?_⟩, fun hs2 hh2 => hh2, ?_⟩
      · simp only [List.mem_append, List.mem_singleton] at hr2
        rcases hr2 with hr2 | hr2
        · exact hg.2 hs2 hh2 r2 hr2
        · subst hr2
          have := processDataRow_keys hpd
          simp only [hsome, Option.some.injEq] at hh2
          rw [← hh2]
          exact this
      · simp [List.isPrefixOf_iff_prefix]

theorem foldlM_coreProcessRow_good {o : CoreOptions} :
    ∀ (rows : List RawRow) (st st' : CoreState), GoodState st →
      rows.foldlM (coreProcessRow o) st = .ok st' →
      GoodState st' ∧ (∀ hs, st.headers = some hs → st'.headers = some hs)
  | [], st, st', hg, h => by
    simp only [List.foldlM_nil] at h
    cases h
    exact ⟨hg, fun _ h => h⟩
  | r :: rs, st, st', hg, h => by
    simp only [List.foldlM_cons] at h
    cases hstep : coreProcessRow o st r with
    | error e => rw [hstep] at h; simp [Bind.bind, Except.bind] at h
    | ok st1 =>
      rw [hstep] at h
      have h1 := coreProcessRow_good hg hstep
      have h2 := foldlM_coreProcessRow_good rs st1 st' h1.1 h
      exact ⟨h2.1, fun hs hh => h2.2 _ (h1.2.1 hs hh)⟩

theorem foldlM_coreProcessRow_headerErr {o : CoreOptions} :
    ∀ (rows : List RawRow) (st : CoreState) (e : CSVError), HeaderError e →
      rows.foldlM (coreProcessRow o) st = .error e → st.headers = none
  | [], st, e, _, h => by simp [List.foldlM_nil, pure, Except.pure] at h
  | r :: rs, st, e, he, h => by
    simp only [List.foldlM_cons] at h
    cases hstep : coreProcessRow o st r with
    | error e2 =>
      rw [hstep] at h
      simp only [Bind.bind, Except.bind] at h
      cases h
      rcases coreProcessRow_error_cases hstep with ⟨hnone, _⟩ | ⟨hs, _, hpd⟩
      · exact hnone
      · exact absurd he (processDataRow_error_not_header hpd)
    | ok st1 =>
      rw [hstep] at h
      have h1 := foldlM_coreProcessRow_headerErr rs st1 e he h
      rcases coreProcessRow_ok_cases hstep with ⟨hs, hnone, _, hst⟩ | ⟨hs, hsome, hcase⟩
      · exact hnone
      · rcases hcase with ⟨_, hst⟩ | ⟨rec, _, hst⟩ <;> subst hst <;> simp_all

-- #endregion

theorem corePushChunk_good {o : CoreOptions} {st st' : CoreState} {chunk : List Char}
    (hg : GoodState st) (h : corePushChunk o st chunk = .ok st') : GoodState st' := by
  unfold corePushChunk at h
  rcases hscan : scanList o.delim false st.scan chunk with ⟨s1, rows⟩
  rw [hscan] at h
  have hg1 : GoodState { st with scan := s1 } := ⟨hg.1, hg.2⟩
  exact (foldlM_coreProcessRow_good rows _ st' hg1 h).1

theorem corePushChunk_headerErr {o : CoreOptions} {st : CoreState} {chunk : List Char}
    {e : CSVError} (hg : GoodState st) (he : HeaderError e)
    (h : corePushChunk o st chunk = .error e) : st.recs = [] := by
  unfold corePushChunk at h
  rcases hscan : scanList o.delim false st.scan chunk with ⟨s1, rows⟩
  rw [hscan] at h
  exact hg.1 (foldlM_coreProcessRow_headerErr rows { st with scan := s1 } e he h)

theorem coreFinish_good {o : CoreOptions} {st st' : CoreState}
    (hg : GoodState st) (h : coreFinish o st = .ok st') : GoodState st' := by
  unfold coreFinish at h
  rcases hem : emitRowS st.scan with ⟨s1, r⟩
  rw [hem] at h
  split at h
  · simp at h
  · split at h
    · exact (coreProcessRow_good (show GoodState { st with scan := { s1 with rowNumber := s1.rowNumber + 1 } } from ⟨hg.1, hg.2⟩) h).1
    · cases h; exact hg

theorem coreFinish_headerErr {o : CoreOptions} {st : CoreState} {e : CSVError}
    (hg : GoodState st) (he : HeaderError e)
    (h : coreFinish o st = .error e) : st.recs = [] := by
  unfold coreFinish at h
  rcases hem : emitRowS st.scan with ⟨s1, r⟩
  rw [hem] at h
  split at h
  · cases h
    exact False.elim he
  · split at h
    · rcases coreProcessRow_error_cases h with ⟨hnone, _⟩ | ⟨hs, _, hpd⟩
      · exact hg.1 hnone
      · exact absurd he (processDataRow_error_not_header hpd)
    · simp at h

theorem goodState_init : GoodState {} :=
  ⟨fun _ => rfl, fun hs h => by simp at h⟩

theorem foldlM_push_good {o : CoreOptions} :
    ∀ (chunks : List (List Char)) (st st1 : CoreState), GoodState st →
      chunks.foldlM (corePushChunk o) st = .ok st1 → GoodState st1
  | [], st, st1, hg, h => by
    simp only [List.foldlM_nil] at h
    cases h
    exact hg
  | c :: cs, st, st1, hg, h => by
    simp only [List.foldlM_cons] at h
    cases hstep : corePushChunk o st c with
    | error e => rw [hstep] at h; simp [Bind.bind, Except.bind] at h
    | ok st2 =>
      rw [hstep] at h
      exact foldlM_push_good cs st2 st1 (corePushChunk_good hg hstep) h

theorem runCore_good {o : CoreOptions} {chunks : List (List Char)} {st' : CoreState}
    (h : runCore o chunks = .ok st') : GoodState st' := by
  unfold runCore at h
  cases hfold : chunks.foldlM (corePushChunk o) {} with
  | error e => rw [hfold] at h; simp [Except.bind] at h
  | ok st1 =>
    rw [hfold] at h
    exact coreFinish_good (foldlM_push_good chunks {} st1 goodState_init hfold) h

theorem streamGo_headerErr {o : CoreOptions} :
    ∀ (chunks : List (List Char)) (st : CoreState) (recs : List CSVRec) (e : CSVError),
      GoodState st → HeaderError e → streamGo o st chunks = (recs, some e) → recs = []
  | [], st, recs, e, hg, he, h => by
    unfold streamGo at h
    cases hfin : coreFinish o st with
    | ok st1 => rw [hfin] at h; simp at h
    | error e2 =>
      rw [hfin] at h
      simp only [Prod.mk.injEq, Option.some.injEq] at h
      rw [← h.1]
      rw [← h.2] at he
      exact coreFinish_headerErr hg he hfin
  | c :: cs, st, recs, e, hg, he, h => by
    unfold streamGo at h
    cases hpush : corePushChunk o st c with
    | ok st1 =>
      rw [hpush] at h
      exact streamGo_headerErr cs st1 recs e (corePushChunk_good hg hpush) he h
    | error e2 =>
      rw [hpush] at h
      simp only [Prod.mk.injEq, Option.some.injEq] at h
      rw [← h.1]
      rw [← h.2] at he
      exact corePushChunk_headerErr hg he hpush

-- #endregion

-- #region Header validation lemmas, C4

theorem dupScan_nodup :
    ∀ (l seen dups : List (List Char)), dups.Nodup → (dupScan l seen dups).Nodup
  | [], _, _, hd => hd
  | h :: t, seen, dups, hd => by
    unfold dupScan
    by_cases h1 : h ∈ seen
    · rw [if_pos h1]
      by_cases h2 : h ∈ dups
      · rw [if_pos h2]
        exact dupScan_nodup t seen dups hd
      · rw [if_neg h2]
        refine dupScan_nodup t seen (dups ++ [h]) ?_
        simp [List.nodup_append, hd, h2]
    · rw [if_neg h1]
      exact dupScan_nodup t (seen ++ [h]) dups hd

theorem countEq_cons_self (x : List Char) (t : List (List Char)) :
    countEq x (x :: t) = countEq x t + 1 := by
  show countEq x t + (if x = x then 1 else 0) = countEq x t + 1
  rw [if_pos rfl]

theorem countEq_cons_ne {x y : List Char} (h : y ≠ x) (t : List (List Char)) :
    countEq x (y :: t) = countEq x t := by
  show countEq x t + (if y = x then 1 else 0) = countEq x t
  rw [if_neg h, Nat.add_zero]

theorem countEq_pos_iff (x : List Char) : ∀ (l : List (List Char)), 1 ≤ countEq x l ↔ x ∈ l
  | [] => by simp [countEq]
  | y :: t => by
    by_cases hy : y = x
    · subst hy
      rw [countEq_cons_self]
      simp only [List.mem_cons]
      constructor
      · intro _
        exact .inl (by trivial)
      · intro _
        omega
    · rw [countEq_cons_ne hy, countEq_pos_iff x t]
      simp [List.mem_cons, Ne.symm hy]

theorem nodup_countEq_le {l : List (List Char)} (h : l.Nodup) (x : List Char) :
    countEq x l ≤ 1 := by
  induction l with
  | nil => simp [countEq]
  | cons y t ih =>
    rw [List.nodup_cons] at h
    by_cases hy : y = x
    · subst hy
      rw [countEq_cons_self]
      have : countEq y t = 0 := by
        by_contra hc
        exact h.1 ((countEq_pos_iff y t).mp (by omega))
      omega
    · rw [countEq_cons_ne hy]
      exact ih h.2

theorem exists_two_le_countEq {l : List (List Char)} (h : ¬l.Nodup) :
    ∃ x, 2 ≤ countEq x l := by
  induction l with
  | nil => exact absurd List.nodup_nil h
  | cons y t ih =>
    rw [List.nodup_cons] at h
    push_neg at h
    by_cases hy : y ∈ t
    · refine ⟨y, ?_⟩
      have := (countEq_pos_iff y t).mpr hy
      rw [countEq_cons_self]
      omega
    · obtain ⟨x, hx⟩ := ih (h hy)
      refine ⟨x, ?_⟩
      by_cases hxy : y = x
      · subst hxy
        rw [countEq_cons_self]
        omega
      · rw [countEq_cons_ne hxy]
        exact hx

theorem dupScan_mem :
    ∀ (l seen dups : List (List Char)) (x : List Char),
      x ∈ dupScan l seen dups ↔ x ∈ dups ∨ (x ∈ l ∧ x ∈ seen) ∨ 2 ≤ countEq x l
  | [], seen, dups, x => by simp [dupScan, countEq]
  | h :: t, seen, dups, x => by
    unfold dupScan
    by_cases h1 : h ∈ seen
    · rw [if_pos h1, dupScan_mem t seen _ x]
      by_cases hx : x = h
      · subst hx
        have hdups : x ∈ (if x ∈ dups then dups else dups ++ [x]) := by
          split
          · assumption
          · simp
        simp [hdups, h1]
      · have hdups : x ∈ (if h ∈ dups then dups else dups ++ [h]) ↔ x ∈ dups := by
          split
          · exact Iff.rfl
          · simp [hx]
        rw [hdups, countEq_cons_ne (Ne.symm hx)]
        simp [List.mem_cons, hx]
    · rw [if_neg h1, dupScan_mem t (seen ++ [h]) dups x]
      by_cases hx : x = h
      · subst hx
        have hc1 : countEq x (x :: t) = countEq x t + 1 := countEq_cons_self x t
        constructor
        · rintro (hd | ⟨ht, _⟩ | hc)
          · exact .inl hd
          · have := (countEq_pos_iff x t).mpr ht
            exact .inr (.inr (by omega))
          · exact .inr (.inr (by omega))
        · rintro (hd | ⟨_, hxseen⟩ | hc)
          · exact .inl hd
          · exact absurd hxseen h1
          · rw [hc1] at hc
            have ht : x ∈ t := (countEq_pos_iff x t).mp (by omega)
            exact .inr (.inl ⟨ht, by simp⟩)
      · rw [countEq_cons_ne (Ne.symm hx)]
        simp [List.mem_cons, hx, List.mem_append, Ne.symm hx]

theorem emptyPositions_mem (hs : List (List Char)) :
    ∀ (n : Nat) (p : Int),
      p ∈ (mapWithIndex (fun i h => if h = [] then (i : Int) + 1 else -1) n hs).filter
          (fun q => decide (0 < q)) ↔
        ∃ i : Nat, hs[i]? = some [] ∧ p = (n : Int) + i + 1 := by
  induction hs with
  | nil =>
    intro n p
    simp [mapWithIndex]
  | cons h t ih =>
    intro n p
    by_cases hh : h = []
    · simp only [mapWithIndex, hh, if_pos rfl, List.filter_cons]
      rw [if_pos (by simp)]
      simp only [List.mem_cons, ih (n + 1) p]
      constructor
      · rintro (hp | ⟨i, hi, hp⟩)
        · exact ⟨0, by simp [hh], by rw [hp]; push_cast; ring⟩
        · exact ⟨i + 1, by simpa using hi, by rw [hp]; push_cast; ring⟩
      · rintro ⟨i, hi, hp⟩
        cases i with
        | zero => exact .inl (by rw [hp]; push_cast; ring)
        | succ j =>
          refine .inr ⟨j, by simpa using hi, by rw [hp]; push_cast; ring⟩
    · simp only [mapWithIndex, if_neg hh, List.filter_cons]
      rw [if_neg (by simp)]
      rw [ih (n + 1) p]
      constructor
      · rintro ⟨i, hi, hp⟩
        exact ⟨i + 1, by simpa using hi, by rw [hp]; push_cast; ring⟩
      · rintro ⟨i, hi, hp⟩
        cases i with
        | zero => exact absurd (by simpa using hi) hh
        | succ j =>
          exact ⟨j, by simpa using hi, by rw [hp]; push_cast; ring⟩

-- #endregion

theorem processHeaderRow_empty {trim : Bool} {hr : List (List Char)} {flags : List Bool}
    (hmem : [] ∈ headerNames trim hr flags) :
    processHeaderRow trim hr flags = .error (.emptyHeaders
      ((mapWithIndex (fun i h => if h = [] then (i : Int) + 1 else -1) 0
        (headerNames trim hr flags)).filter (fun q => decide (0 < q)))) := by
  obtain ⟨i, hi⟩ := List.mem_iff_getElem?.mp hmem
  have hp : ((i : Int) + 1) ∈
      ((mapWithIndex (fun i h => if h = [] then (i : Int) + 1 else -1) 0
        (headerNames trim hr flags)).filter (fun q => decide (0 < q))) := by
    rw [emptyPositions_mem _ 0 _]
    exact ⟨i, hi, by push_cast; ring⟩
  simp only [processHeaderRow]
  rw [if_pos (List.ne_nil_of_mem hp)]

theorem processHeaderRow_positions_empty {trim : Bool} {hr : List (List Char)}
    {flags : List Bool} (hnm : [] ∉ headerNames trim hr flags) :
    ((mapWithIndex (fun i h => if h = [] then (i : Int) + 1 else -1) 0
      (headerNames trim hr flags)).filter (fun q => decide (0 < q))) = [] := by
  rw [List.eq_nil_iff_forall_not_mem]
  intro p hp
  rw [emptyPositions_mem _ 0 p] at hp
  obtain ⟨i, hi, _⟩ := hp
  exact hnm (List.mem_iff_getElem?.mpr ⟨i, hi⟩)

theorem processHeaderRow_dup {trim : Bool} {hr : List (List Char)} {flags : List Bool}
    (hnm : [] ∉ headerNames trim hr flags) (hnd : ¬(headerNames trim hr flags).Nodup) :
    processHeaderRow trim hr flags =
      .error (.duplicateHeaders (dupScan (headerNames trim hr flags) [] [])) := by
  simp only [processHeaderRow]
  rw [if_neg (by simp [processHeaderRow_positions_empty hnm])]
  obtain ⟨x, hx⟩ := exists_two_le_countEq hnd
  have hxmem : x ∈ dupScan (headerNames trim hr flags) [] [] :=
    (dupScan_mem _ [] [] x).mpr (.inr (.inr hx))
  rw [if_pos (List.ne_nil_of_mem hxmem)]

theorem processHeaderRow_success {trim : Bool} {hr : List (List Char)} {flags : List Bool}
    (hnm : [] ∉ headerNames trim hr flags) (hnd : (headerNames trim hr flags).Nodup) :
    processHeaderRow trim hr flags = .ok (headerNames trim hr flags) := by
  simp only [processHeaderRow]
  rw [if_neg (by simp [processHeaderRow_positions_empty hnm])]
  have hdups : dupScan (headerNames trim hr flags) [] [] = [] := by
    rw [List.eq_nil_iff_forall_not_mem]
    intro x hx
    rw [dupScan_mem _ [] [] x] at hx
    rcases hx with hx | ⟨_, hx⟩ | hx
    · simp at hx
    · simp at hx
    · have := nodup_countEq_le hnd x
      omega
  rw [if_neg (by simp [hdups])]

/-- C4 (amended): on the first completed row, with the `trim` option on
(its default) each header value is trimmed unless that header was quoted
(quoted headers are never trimmed even then); with `trim` off no header is
trimmed.  If any header is empty after this step the parse fails with a
structural error listing exactly the 1-based positions of the empty names;
otherwise, if any header string repeats, it fails with a structural error
listing every duplicated name exactly once, in first-duplicate order; the
empty-name check takes priority over the duplicate check, and no record is
ever yielded by a stream that fails with either header error.  Concretely:
a quoted header keeps its spaces even with trim on; an unquoted one is
trimmed; `a,,a` reports the empty position 2 rather than the duplicate
`a`; and `b,a,b,a,b` reports duplicates as `b, a`, each once, in
first-duplicate order. -/
theorem header_validation_contract :
    (∀ (trim : Bool) (hr : List (List Char)) (flags : List Bool),
      headerNames true hr flags =
        mapWithIndex (fun i h => if flags.getD i false then h else jsTrim h) 0 hr ∧
      headerNames false hr flags = hr ∧
      ([] ∈ headerNames trim hr flags →
        ∃ ps, processHeaderRow trim hr flags = .error (.emptyHeaders ps) ∧
          ∀ p : Int, p ∈ ps ↔
            ∃ i : Nat, (headerNames trim hr flags)[i]? = some [] ∧ p = (i : Int) + 1) ∧
      ([] ∉ headerNames trim hr flags → ¬(headerNames trim hr flags).Nodup →
        ∃ ds, processHeaderRow trim hr flags = .error (.duplicateHeaders ds) ∧ ds.Nodup ∧
          ∀ x, x ∈ ds ↔ 2 ≤ countEq x (headerNames trim hr flags)) ∧
      ([] ∉ headerNames trim hr flags → (headerNames trim hr flags).Nodup →
        processHeaderRow trim hr flags = .ok (headerNames trim hr flags))) ∧
    (∀ (chunks : List (List Char)) (po : ParseOptions) (recs : List CSVRec) (e : CSVError),
      parseCSVStream chunks po = (recs, some e) → HeaderError e → recs = []) ∧
    parseCSV (some (chars "\" a \",b\nx,y")) {} =
      .ok [[(chars " a ", chars "x"), (chars "b", chars "y")]] ∧
    parseCSV (some (chars " a , b \nx,y")) {} =
      .ok [[(chars "a", chars "x"), (chars "b", chars "y")]] ∧
    parseCSV (some (chars "a,,a\nx,y,z")) {} = .error (.emptyHeaders [2]) ∧
    parseCSV (some (chars "b,a,b,a,b\nq,r,s,t,u")) {} =
      .error (.duplicateHeaders [chars "b", chars "a"]) := by
  refine ⟨?_, ?_, by decide, by decide, by decide, by decide⟩
  · intro trim hr flags
    refine ⟨by simp [headerNames], by simp [headerNames], ?_, ?_, processHeaderRow_success⟩
    · intro hmem
      refine ⟨_, processHeaderRow_empty hmem, ?_⟩
      intro p
      rw [emptyPositions_mem _ 0 p]
      constructor
      · rintro ⟨i, hi, hp⟩
        exact ⟨i, hi, by rw [hp]; push_cast; ring⟩
      · rintro ⟨i, hi, hp⟩
        exact ⟨i, hi, by rw [hp]; push_cast; ring⟩
    · intro hnm hnd
      refine ⟨_, processHeaderRow_dup hnm hnd, dupScan_nodup _ [] [] (by simp), ?_⟩
      intro x
      rw [dupScan_mem _ [] [] x]
      simp
  · intro chunks po recs e h he
    unfold parseCSVStream at h
    cases hv : validateParseOptions po with
    | error e2 =>
      rw [hv] at h
      simp only [Prod.mk.injEq] at h
      exact h.1.symm
    | ok o =>
      rw [hv] at h
      exact streamGo_headerErr chunks {} recs e goodState_init he h

/-- Witness for C4 at a concrete header row. -/
theorem header_validation_witness :
    processHeaderRow true [chars " a ", chars "b"] [false, false] =
      .ok [chars "a", chars "b"] :=
  ((header_validation_contract.1 true [chars " a ", chars "b"] [false, false]).2.2.2.2
    (by decide) (by decide)).trans (by decide)

/-- C4 counterexample: with `trim := false` an unquoted header keeps its
surrounding whitespace, so the claim that each unquoted header value is
trimmed fails at this input. -/
theorem header_validation_counterexample :
    parseCSV (some (chars " a \nx")) { trim := false } =
      .ok [[(chars " a ", chars "x")]] ∧
    chars " a " ≠ chars "a" := ⟨by decide, by decide⟩

-- #endregion

-- #region C8: record-shape invariant

theorem mapWithIndex_getElem? (f : Nat → α → β) :
    ∀ (l : List α) (n i : Nat), (mapWithIndex f n l)[i]? = (l[i]?).map (fun a => f (n + i) a)
  | [], n, i => by simp [mapWithIndex]
  | a :: t, n, 0 => by simp [mapWithIndex]
  | a :: t, n, i + 1 => by
    simp only [mapWithIndex, List.getElem?_cons_succ]
    rw [mapWithIndex_getElem? f t (n + 1) i]
    have : n + 1 + i = n + (i + 1) := by omega
    rw [this]

/-- C8: for every successful parser-core run, every emitted record is
keyed exactly by the finalized header column list; rows shorter than the
header list are padded with empty-string values at the missing positions
(shown at the level of the emitted record: beyond the raw field count,
each position holds the header paired with the empty string), and longer
rows never contribute keys beyond the headers.  Concretely a two-field row
under three headers yields the record padded with one empty value. -/
theorem record_shape_invariant :
    (∀ (o : CoreOptions) (chunks : List (List Char)) (st' : CoreState),
      runCore o chunks = .ok st' →
      ∀ r ∈ st'.recs, ∃ hs, st'.headers = some hs ∧ r.map Prod.fst = hs) ∧
    (∀ (trim strict : Bool) (headers fieldValues : List (List Char)) (quotedFlags : List Bool)
      (rowNumber : Nat) (rec : CSVRec),
      processDataRow trim strict headers fieldValues quotedFlags rowNumber = .ok (some rec) →
      rec.map Prod.fst = headers ∧
      ∀ i : Nat, fieldValues.length ≤ i →
        rec[i]? = (headers[i]?).map (fun h => (h, []))) ∧
    parseCSV (some (chars "a,b,c\nx,y")) {} =
      .ok [[(chars "a", chars "x"), (chars "b", chars "y"), (chars "c", [])]] := by
  refine ⟨?_, ?_, by decide⟩
  · intro o chunks st' h r hr
    have hg := runCore_good h
    cases hh : st'.headers with
    | none =>
      rw [hg.1 hh] at hr
      simp at hr
    | some hs => exact ⟨hs, rfl, hg.2 hs hh r hr⟩
  · intro trim strict headers fieldValues quotedFlags rowNumber rec h
    refine ⟨processDataRow_keys h, ?_⟩
    intro i hi
    simp only [processDataRow] at h
    split at h
    · simp at h
    · split at h
      · simp at h
      · simp only [Except.ok.injEq, Option.some.injEq] at h
        rw [← h, mapWithIndex_getElem?]
        have hfv : fieldValues[i]? = none := by
          rw [List.getElem?_eq_none_iff]
          exact hi
        cases hhi : headers[i]? with
        | none => rfl
        | some hcol => simp [hfv, jsTrim]

/-- Witness for C8 at a concrete short row. -/
theorem record_shape_invariant_witness :
    ([(chars "a", chars "x"), (chars "b", [])] : CSVRec).map Prod.fst =
      [chars "a", chars "b"] ∧
    ([(chars "a", chars "x"), (chars "b", [])] : CSVRec)[1]? =
      (([chars "a", chars "b"] : List (List Char))[1]?).map (fun h => (h, [])) := by
  have h := record_shape_invariant.2.1 true true [chars "a", chars "b"] [chars "x"] [false] 2
    [(chars "a", chars "x"), (chars "b", ([] : List Char))] (by decide)
  exact ⟨h.1, h.2 1 (by decide)⟩

-- #endregion

-- #region Scan numbering and core/batch agreement, C10

theorem emitRowS_num (s : ScanState) : (emitRowS s).2.num = s.rowNumber := rfl

theorem emitRowS_inQuotes (s : ScanState) : (emitRowS s).1.inQuotes = s.inQuotes := rfl

theorem scanStep_num {d : Char} {s : ScanState} {c : Char} {next : Option Char}
    {s1 : ScanState} {em : Option RawRow} {cn : Bool}
    (h : scanStep d s c next = (s1, em, cn)) :
    (em = none ∧ s1.rowNumber = s.rowNumber) ∨
    (∃ r, em = some r ∧ r.num = s.rowNumber ∧ s1.rowNumber = s.rowNumber + 1) := by
  unfold scanStep at h
  split_ifs at h <;>
    simp only [Prod.mk.injEq] at h <;>
    obtain ⟨h1, h2, h3⟩ := h
  · exact .inl ⟨h2.symm, by rw [← h1]⟩
  · exact .inl ⟨h2.symm, by rw [← h1]⟩
  · exact .inl ⟨h2.symm, by rw [← h1]⟩
  · exact .inl ⟨h2.symm, by rw [← h1]⟩
  · exact .inl ⟨h2.symm, by rw [← h1]⟩
  · exact .inl ⟨h2.symm, by rw [← h1, appendFieldS]⟩
  · refine .inr ⟨(emitRowS s).2, h2.symm, emitRowS_num s, by rw [← h1]⟩
  · exact .inl ⟨h2.symm, by rw [← h1]⟩

theorem scanSkipStep_num {d : Char} {skip : Bool} {s : ScanState} {c : Char}
    {next : Option Char} {s1 : ScanState} {em : Option RawRow} {cn : Bool}
    (h : scanSkipStep d skip s c next = (s1, em, cn)) :
    (em = none ∧ s1.rowNumber = s.rowNumber) ∨
    (∃ r, em = some r ∧ r.num = s.rowNumber ∧ s1.rowNumber = s.rowNumber + 1) := by
  unfold scanSkipStep at h
  split_ifs at h
  · simp only [Prod.mk.injEq] at h
    exact .inl ⟨h.2.1.symm, by rw [← h.1]⟩
  · exact scanStep_num h

theorem numberedFrom_append {l1 : List RawRow} {r : RawRow} {n : Nat}
    (h1 : numberedFrom n l1) (h2 : r.num = n + l1.length) :
    numberedFrom n (l1 ++ [r]) := by
  induction l1 generalizing n with
  | nil =>
    simp only [List.nil_append, numberedFrom]
    exact ⟨by simpa using h2, trivial⟩
  | cons a t ih =>
    obtain ⟨ha, ht⟩ := h1
    exact ⟨ha, ih ht (by simp at h2 ⊢; omega)⟩

theorem scanList_numbered (d : Char) :
    ∀ (cs : List Char) (skip : Bool) (s : ScanState),
      numberedFrom s.rowNumber (scanList d skip s cs).2 ∧
      (scanList d skip s cs).1.rowNumber = s.rowNumber + (scanList d skip s cs).2.length
  | [], skip, s => by simp [scanList, numberedFrom]
  | c :: rest, skip, s => by
    rcases hstep : scanSkipStep d skip s c rest.head? with
      ⟨⟨row, flags, field, inQ, fq, num⟩, em, cn⟩
    have hrec := scanList_numbered d rest cn ⟨row, flags, field, inQ, fq, num⟩
    rcases hrest : scanList d cn ⟨row, flags, field, inQ, fq, num⟩ rest with ⟨s2, rows⟩
    rw [hrest] at hrec
    simp only [scanList, hstep, hrest]
    rcases scanSkipStep_num hstep with ⟨hem, hnum⟩ | ⟨r, hem, hrnum, hnum⟩
    · subst hem
      simp only [Option.toList_none, List.nil_append]
      have : num = s.rowNumber := hnum
      rw [this] at hrec
      exact hrec
    · subst hem
      simp only [Option.toList_some, List.singleton_append, List.length_cons]
      have hnum2 : num = s.rowNumber + 1 := hnum
      rw [hnum2] at hrec
      obtain ⟨hrec1, hrec2⟩ := hrec
      have hrec3 : s2.rowNumber = s.rowNumber + 1 + rows.length := hrec2
      refine ⟨⟨hrnum, hrec1⟩, ?_⟩
      show s2.rowNumber = s.rowNumber + (rows.length + 1)
      omega

-- #endregion

theorem coreProcessRow_scan (o : CoreOptions) (sc sc0 : ScanState)
    (hd : Option (List (List Char))) (recs : List CSVRec) (r : RawRow) :
    coreProcessRow o ⟨sc, hd, recs⟩ r =
      (coreProcessRow o ⟨sc0, hd, recs⟩ r).map (fun st2 => { st2 with scan := sc }) := by
  cases hd with
  | none =>
    rw [coreProcessRow_eq_none (show (⟨sc, none, recs⟩ : CoreState).headers = none from rfl),
      coreProcessRow_eq_none (show (⟨sc0, none, recs⟩ : CoreState).headers = none from rfl)]
    cases hph : processHeaderRow o.trim r.fields r.flags with
    | error e => rfl
    | ok hs => rfl
  | some hs =>
    rw [coreProcessRow_eq_some (show (⟨sc, some hs, recs⟩ : CoreState).headers = some hs from rfl),
      coreProcessRow_eq_some (show (⟨sc0, some hs, recs⟩ : CoreState).headers = some hs from rfl)]
    cases hpd : processDataRow o.trim o.strict hs r.fields r.flags r.num with
    | error e => rfl
    | ok res =>
      cases res with
      | none => rfl
      | some rec => rfl

theorem coreProcessRow_scan_eq {o : CoreOptions} {st st' : CoreState} {r : RawRow}
    (h : coreProcessRow o st r = .ok st') : st'.scan = st.scan := by
  rcases coreProcessRow_ok_cases h with ⟨hs, _, _, hst⟩ | ⟨hs, _, hcase⟩
  · subst hst; rfl
  · rcases hcase with ⟨_, hst⟩ | ⟨rec, _, hst⟩ <;> subst hst <;> rfl

theorem foldlM_scan_eq {o : CoreOptions} :
    ∀ (rows : List RawRow) (st st' : CoreState),
      rows.foldlM (coreProcessRow o) st = .ok st' → st'.scan = st.scan
  | [], st, st', h => by
    simp only [List.foldlM_nil] at h
    cases h
    rfl
  | r :: rs, st, st', h => by
    simp only [List.foldlM_cons] at h
    cases hstep : coreProcessRow o st r with
    | error e => rw [hstep] at h; simp [Bind.bind, Except.bind] at h
    | ok st1 =>
      rw [hstep] at h
      rw [foldlM_scan_eq rs st1 st' h]
      exact coreProcessRow_scan_eq hstep

theorem fold_data_to_batch {o : CoreOptions} :
    ∀ (rs : List RawRow) (n : Nat) (st st' : CoreState) (hs : List (List Char)),
      st.headers = some hs → numberedFrom (n + 2) rs →
      rs.foldlM (coreProcessRow o) st = .ok st' →
      ∃ out, batchProcessData o.trim o.strict hs n rs = .ok out ∧ st'.recs = st.recs ++ out
  | [], n, st, st', hs, hh, _, h => by
    simp only [List.foldlM_nil] at h
    cases h
    exact ⟨[], rfl, by simp⟩
  | r :: rs, n, st, st', hs, hh, hnum, h => by
    obtain ⟨hrnum, hnum2⟩ := hnum
    simp only [List.foldlM_cons] at h
    rw [coreProcessRow_eq_some hh] at h
    cases hpd : processDataRow o.trim o.strict hs r.fields r.flags r.num with
    | error e => rw [hpd] at h; simp [Except.map, Bind.bind, Except.bind] at h
    | ok res =>
      rw [hpd] at h
      rw [show r.num = n + 2 from hrnum] at hpd
      have hnum3 : numberedFrom (n + 1 + 2) rs := by
        rw [show n + 1 + 2 = n + 2 + 1 from by omega]
        exact hnum2
      cases res with
      | none =>
        have h2 := fold_data_to_batch rs (n + 1) st st' hs hh hnum3 h
        obtain ⟨out, hb, hr⟩ := h2
        refine ⟨out, ?_, hr⟩
        unfold batchProcessData
        rw [hpd]
        exact hb
      | some rec =>
        have h2 := fold_data_to_batch rs (n + 1) { st with recs := st.recs ++ [rec] } st' hs hh
          hnum3 h
        obtain ⟨out, hb, hr⟩ := h2
        refine ⟨rec :: out, ?_, ?_⟩
        · unfold batchProcessData
          rw [hpd, hb]
          rfl
        · rw [hr]
          simp

theorem core_rows_to_batch {o : CoreOptions} :
    ∀ (rows2 : List RawRow) (st0 st' : CoreState),
      st0.headers = none → st0.recs = [] → numberedFrom 1 rows2 →
      rows2.foldlM (coreProcessRow o) st0 = .ok st' →
      (rows2 = [] → st'.recs = []) ∧
      (∀ hr drs, rows2 = hr :: drs →
        ∃ hs, processHeaderRow o.trim hr.fields hr.flags = .ok hs ∧
          batchProcessData o.trim o.strict hs 0 drs = .ok st'.recs) := by
  intro rows2 st0 st' hh hrecs hnum h
  cases rows2 with
  | nil =>
    simp only [List.foldlM_nil] at h
    cases h
    exact ⟨fun _ => hrecs, fun hr drs hcon => by simp at hcon⟩
  | cons hr drs =>
    refine ⟨fun hcon => by simp at hcon, ?_⟩
    rintro hr2 drs2 heq
    obtain ⟨heq1, heq2⟩ : hr2 = hr ∧ drs2 = drs := by
      constructor <;> injection heq <;> simp_all
    subst heq1
    subst heq2
    obtain ⟨hrnum, hnum2⟩ := hnum
    simp only [List.foldlM_cons] at h
    rw [coreProcessRow_eq_none hh] at h
    cases hph : processHeaderRow o.trim hr2.fields hr2.flags with
    | error e => rw [hph] at h; simp [Except.map, Bind.bind, Except.bind] at h
    | ok hs =>
      rw [hph] at h
      have h2 := fold_data_to_batch drs2 0 { st0 with headers := some hs } st' hs rfl
        (by simpa using hnum2) h
      obtain ⟨out, hb, hr3⟩ := h2
      rw [hrecs] at hr3
      simp only [List.nil_append] at hr3
      exact ⟨hs, rfl, by rw [hb, hr3]⟩

/-- C10 (amended): whenever the core-based `parseCSV` of part_005 succeeds,
the batch `parseCSV` of csv.ts returns exactly the same record array.  The
two implementations are not equivalent in general: on header-only inputs
with an invalid header the batch parser returns `[]` before validating,
while the core raises the header error (see the counterexample), and when
several faults are present they can report different errors. -/
theorem core_batch_agreement :
    ∀ (csv : Option (List Char)) (po : ParseOptions) (recs : List CSVRec),
      parseCSV csv po = .ok recs → batchParseCSV csv po = .ok recs := by
  intro csv po recs h
  cases csv with
  | none =>
    simp only [parseCSV] at h
    cases h
    rfl
  | some s =>
    simp only [parseCSV] at h
    by_cases hts : jsTrim s = []
    · rw [if_pos hts] at h
      cases h
      simp only [batchParseCSV]
      rw [if_pos hts]
    · rw [if_neg hts] at h
      cases hv : validateParseOptions po with
      | error e =>
        rw [hv] at h
        simp [Except.bind] at h
      | ok o =>
        rw [hv] at h
        have h2 : (runCore o [s]).map (fun st => st.recs) = .ok recs := h
        clear h
        unfold runCore at h2
        simp only [List.foldlM_cons, List.foldlM_nil] at h2
        cases hpush : corePushChunk o {} s with
        | error e =>
          rw [hpush] at h2
          simp [Bind.bind, Except.bind, Except.map] at h2
        | ok st1 =>
          rw [hpush] at h2
          cases hfin : coreFinish o st1 with
          | error e =>
            have h2b : Except.map (fun st => st.recs) (coreFinish o st1) = .ok recs := h2
            rw [hfin] at h2b
            simp [Except.map] at h2b
          | ok stF =>
            have h2b : Except.map (fun st => st.recs) (coreFinish o st1) = .ok recs := h2
            rw [hfin] at h2b
            have hrecs : stF.recs = recs := by
              simpa [Except.map] using h2b
            -- dissect the push into scan plus row processing
            unfold corePushChunk at hpush
            rw [show ({} : CoreState).scan = ({} : ScanState) from rfl] at hpush
            rcases hscan : scanList o.delim false {} s with ⟨fin, rows⟩
            rw [hscan] at hpush
            obtain ⟨sc1, hd1, recs1⟩ := st1
            have hpush2 : rows.foldlM (coreProcessRow o) (⟨fin, none, []⟩ : CoreState) =
                .ok ⟨sc1, hd1, recs1⟩ := hpush
            have hsc1 : fin = sc1 := (foldlM_scan_eq rows _ _ hpush2).symm
            subst hsc1
            -- numbering of the scanned rows
            have hnum0 := scanList_numbered o.delim s false {}
            rw [hscan] at hnum0
            have hnum : numberedFrom 1 rows := hnum0.1
            have hfinnum : fin.rowNumber = 1 + rows.length := hnum0.2
            -- batch computation, step by step
            have hb : batchParseCSV (some s) po =
                (match scanList o.delim false {} s with
                | (fin, rows) =>
                  let withLast :=
                    if fin.currentField ≠ [] ∨ fin.currentRow ≠ [] then
                      match emitRowS fin with
                      | (fin1, r) => (fin1, rows ++ [r])
                    else (fin, rows)
                  if withLast.1.inQuotes = true then
                    .error (.unterminatedQuote withLast.1.rowNumber)
                  else if withLast.2.length ≤ 1 then .ok []
                  else
                    match withLast.2 with
                    | [] => .ok []
                    | headerRow :: dataRows =>
                      (processHeaderRow o.trim headerRow.fields headerRow.flags).bind
                        (fun headers => batchProcessData o.trim o.strict headers 0 dataRows)) := by
              simp only [batchParseCSV]
              rw [if_neg hts, hv]
            rw [hscan] at hb
            dsimp only at hb
            -- finish analysis
            unfold coreFinish at hfin
            have hstscan : (⟨fin, hd1, recs1⟩ : CoreState).scan = fin := rfl
            rw [hstscan] at hfin
            rcases hem : emitRowS fin with ⟨fin1, lr⟩
            rw [hem] at hfin
            have hlrnum : lr.num = fin.rowNumber := by
              rw [← emitRowS_num fin, hem]
            by_cases hiq : fin.inQuotes = true
            · rw [if_pos hiq] at hfin
              exact absurd hfin (by simp)
            · rw [if_neg hiq] at hfin
              have hfin1q : fin1.inQuotes = fin.inQuotes := by
                rw [← emitRowS_inQuotes fin, hem]
              by_cases hlo : fin.currentField ≠ [] ∨ fin.currentRow ≠ []
              · -- a leftover row is flushed
                rw [if_pos hlo] at hfin
                have hfin2 : coreProcessRow o
                    (⟨{ fin1 with rowNumber := fin1.rowNumber + 1 }, hd1, recs1⟩ : CoreState) lr =
                    .ok stF := hfin
                rw [coreProcessRow_scan o _ fin hd1 recs1 lr] at hfin2
                cases hcp : coreProcessRow o (⟨fin, hd1, recs1⟩ : CoreState) lr with
                | error e => rw [hcp] at hfin2; simp [Except.map] at hfin2
                | ok stI =>
                  rw [hcp] at hfin2
                  have hstF : stF = { stI with scan := { fin1 with rowNumber := fin1.rowNumber + 1 } } := by
                    simpa [Except.map] using hfin2.symm
                  have hstFrecs : stF.recs = stI.recs := by rw [hstF]
                  have hall : (rows ++ [lr]).foldlM (coreProcessRow o)
                      (⟨fin, none, []⟩ : CoreState) = .ok stI := by
                    rw [List.foldlM_append, hpush2]
                    show (do
                        let b ← coreProcessRow o (⟨fin, hd1, recs1⟩ : CoreState) lr
                        pure b : Except CSVError CoreState) = .ok stI
                    rw [hcp]
                    rfl
                  have hnumall : numberedFrom 1 (rows ++ [lr]) :=
                    numberedFrom_append hnum (by rw [hlrnum, hfinnum])
                  have hctb := core_rows_to_batch (rows ++ [lr]) _ _ rfl rfl hnumall hall
                  -- assemble the batch value
                  have hwl : (if fin.currentField ≠ [] ∨ fin.currentRow ≠ [] then
                      match emitRowS fin with
                      | (fin1, r) => (fin1, rows ++ [r])
                    else (fin, rows)) = (fin1, rows ++ [lr]) := by
                    rw [if_pos hlo, hem]
                  rw [hwl] at hb
                  dsimp only at hb
                  rw [hb]
                  have hiq1 : ¬(fin1.inQuotes = true) := by rw [hfin1q]; exact hiq
                  rw [if_neg hiq1]
                  cases hrows : rows with
                  | nil =>
                    -- only the leftover row: header-only input, batch returns []
                    rw [if_pos (by simp)]
                    rw [hrows] at hctb
                    obtain ⟨hs, hph, hbd⟩ := hctb.2 lr [] (by simp)
                    have hnil : stI.recs = [] := by
                      simpa [batchProcessData] using hbd.symm
                    rw [← hrecs, hstFrecs, hnil]
                  | cons hr drs =>
                    rw [if_neg (by simp)]
                    rw [hrows] at hctb
                    obtain ⟨hs, hph, hbd⟩ := hctb.2 hr (drs ++ [lr]) (by simp)
                    rw [List.cons_append]
                    show (processHeaderRow o.trim hr.fields hr.flags).bind
                      (fun headers => batchProcessData o.trim o.strict headers 0 (drs ++ [lr])) =
                        .ok recs
                    rw [hph]
                    show batchProcessData o.trim o.strict hs 0 (drs ++ [lr]) = .ok recs
                    rw [← hrecs, hstFrecs]
                    exact hbd
              · -- no leftover: the scanned rows are everything
                rw [if_neg hlo] at hfin
                have hstF : stF = ⟨fin, hd1, recs1⟩ := by
                  cases hfin
                  rfl
                have hctb := core_rows_to_batch rows _ _ rfl rfl hnum hpush2
                have hwl : (if fin.currentField ≠ [] ∨ fin.currentRow ≠ [] then
                    match emitRowS fin with
                    | (fin1, r) => (fin1, rows ++ [r])
                  else (fin, rows)) = (fin, rows) := by
                  rw [if_neg hlo]
                rw [hwl] at hb
                dsimp only at hb
                rw [hb]
                rw [if_neg hiq]
                cases hrows : rows with
                | nil =>
                  rw [if_pos (by simp)]
                  rw [hrows] at hctb
                  have hnil : recs1 = [] := hctb.1 rfl
                  rw [← hrecs, hstF, hnil]
                | cons hr drs =>
                  cases drs with
                  | nil =>
                    rw [if_pos (by simp)]
                    rw [hrows] at hctb
                    obtain ⟨hs, hph, hbd⟩ := hctb.2 hr [] rfl
                    have hnil : recs1 = [] := by
                      have h4 : (⟨fin, hd1, recs1⟩ : CoreState).recs = recs1 := rfl
                      simpa [batchProcessData, h4] using hbd.symm
                    rw [← hrecs, hstF, hnil]
                  | cons d2 drs2 =>
                    rw [if_neg (by simp)]
                    rw [hrows] at hctb
                    obtain ⟨hs, hph, hbd⟩ := hctb.2 hr (d2 :: drs2) rfl
                    show (processHeaderRow o.trim hr.fields hr.flags).bind
                      (fun headers => batchProcessData o.trim o.strict headers 0 (d2 :: drs2)) =
                        .ok recs
                    rw [hph]
                    show batchProcessData o.trim o.strict hs 0 (d2 :: drs2) = .ok recs
                    rw [← hrecs, hstF]
                    exact hbd

/-- C10 counterexample: on the header-only input `a,a` the core-based
parseCSV raises the duplicate-header error while the batch parseCSV
returns `[]` (it checks `rows.length <= 1` before validating the header),
so the two do not always return equal arrays or fail with the same error. -/
theorem core_batch_counterexample :
    parseCSV (some (chars "a,a")) {} = .error (.duplicateHeaders [chars "a"]) ∧
    batchParseCSV (some (chars "a,a")) {} = .ok [] := ⟨by decide, by decide⟩

/-- Witness for C10 at a concrete input. -/
theorem core_batch_witness :
    batchParseCSV (some (chars "a,b\nx,y")) {} =
      .ok [[(chars "a", chars "x"), (chars "b", chars "y")]] :=
  core_batch_agreement (some (chars "a,b\nx,y")) {}
    [[(chars "a", chars "x"), (chars "b", chars "y")]] (by decide)

-- #endregion

-- #region Clean-text scanning lemmas, C2

theorem scanStep_clean {d : Char} {s : ScanState} {c : Char} {next : Option Char}
    (hq : s.inQuotes = false) (hfq : s.isFieldQuoted = false) (hc : CleanChar d c) :
    scanStep d s c next = ({ s with currentField := s.currentField ++ [c] }, none, false) := by
  obtain ⟨hc1, hc2, hc3, hc4⟩ := hc
  unfold scanStep
  rw [if_neg (fun h => absurd h.1 (by simp [hfq])), if_neg hc1,
    if_neg (fun h => hc2 h.1), if_neg (fun h => h.1.elim (fun e => hc3 e) (fun e => hc4 e))]

theorem scanStep_delim {d : Char} {s : ScanState} {next : Option Char}
    (hq : s.inQuotes = false) (hd1 : d ≠ '"') :
    scanStep d s d next = (appendFieldS s, none, false) := by
  unfold scanStep
  rw [if_neg (fun h => h.2.2.1 rfl), if_neg hd1, if_pos ⟨rfl, hq⟩]

theorem scanStep_newline {d : Char} {s : ScanState} {next : Option Char}
    (hq : s.inQuotes = false) (hdn : d ≠ '\n') :
    scanStep d s '\n' next =
      ({ (emitRowS s).1 with rowNumber := s.rowNumber + 1 }, some (emitRowS s).2, false) := by
  unfold scanStep
  rw [if_neg (fun h => absurd h.2.2.2 (by decide)), if_neg (by decide : ¬('\n' = '"')),
    if_neg (fun h => Ne.symm hdn h.1), if_pos ⟨Or.inl rfl, hq⟩]
  rfl

theorem scanList_cons_none {d : Char} {s : ScanState} {c : Char} {rest : List Char}
    {s1 : ScanState} (h : scanStep d s c rest.head? = (s1, none, false)) :
    scanList d false s (c :: rest) = scanList d false s1 rest := by
  obtain ⟨r1, f1, cf1, q1, fq1, n1⟩ := s1
  have h2 : scanSkipStep d false s c rest.head? = (⟨r1, f1, cf1, q1, fq1, n1⟩, none, false) := by
    rw [show scanSkipStep d false s c rest.head? = scanStep d s c rest.head? from rfl, h]
  simp only [scanList, h2]
  rcases hrec : scanList d false ⟨r1, f1, cf1, q1, fq1, n1⟩ rest with ⟨s2, rows⟩
  simp

theorem scanList_cons_some {d : Char} {s : ScanState} {c : Char} {rest : List Char}
    {s1 : ScanState} {r : RawRow} (h : scanStep d s c rest.head? = (s1, some r, false)) :
    scanList d false s (c :: rest) =
      ((scanList d false s1 rest).1, r :: (scanList d false s1 rest).2) := by
  obtain ⟨r1, f1, cf1, q1, fq1, n1⟩ := s1
  have h2 : scanSkipStep d false s c rest.head? = (⟨r1, f1, cf1, q1, fq1, n1⟩, some r, false) := by
    rw [show scanSkipStep d false s c rest.head? = scanStep d s c rest.head? from rfl, h]
  simp only [scanList, h2]
  rcases hrec : scanList d false ⟨r1, f1, cf1, q1, fq1, n1⟩ rest with ⟨s2, rows⟩
  simp

theorem scanList_clean_field {d : Char} :
    ∀ (f : List Char) {s : ScanState} (rest : List Char),
      CleanField d f → s.inQuotes = false → s.isFieldQuoted = false →
      scanList d false s (f ++ rest) =
        scanList d false { s with currentField := s.currentField ++ f } rest
  | [], s, rest, _, _, _ => by
    simp only [List.nil_append, List.append_nil]
  | ch :: f', s, rest, hcl, hq, hfq => by
    have hstep := @scanStep_clean d s ch (f' ++ rest).head? hq hfq (hcl ch (by simp))
    rw [List.cons_append, scanList_cons_none hstep]
    rw [scanList_clean_field f' (s := { s with currentField := s.currentField ++ [ch] }) rest
      (fun x hx => hcl x (by simp [hx])) hq hfq]
    have harr : s.currentField ++ [ch] ++ f' = s.currentField ++ (ch :: f') := by simp
    rw [show ({ s with currentField := s.currentField ++ [ch] } : ScanState).currentField ++ f' =
      s.currentField ++ [ch] ++ f' from rfl, harr]

theorem getLastD_eq_getLast {α : Type} (d : α) (l : List α) (h : l ≠ []) :
    l.getLastD d = l.getLast h := by
  cases l with
  | nil => exact absurd rfl h
  | cons x t => rfl

theorem dropLast_append_getLastD {α : Type} (d : α) (l : List α) (h : l ≠ []) :
    l.dropLast ++ [l.getLastD d] = l := by
  rw [getLastD_eq_getLast d l h]
  exact List.dropLast_append_getLast h

theorem getLastD_cons₂ {α : Type} (d : α) (x : α) (l : List α) (h : l ≠ []) :
    (x :: l).getLastD d = l.getLastD d := by
  rw [getLastD_eq_getLast d (x :: l) (by simp), getLastD_eq_getLast d l h]
  exact List.getLast_cons h

/-- Scanning one quote-free row of fields, joined by the delimiter, from a
state with empty pending field: the fields pile up in the row buffer, with the
last one left pending. -/
theorem rowFieldsScan {d : Char} (hd1 : d ≠ '"') :
    ∀ (fs : List (List Char)) {s : ScanState} (rest : List Char),
      fs ≠ [] → (∀ f ∈ fs, CleanField d f) →
      s.inQuotes = false → s.isFieldQuoted = false → s.currentField = [] →
      scanList d false s (joinSep [d] fs ++ rest) =
        scanList d false
          { s with currentRow := s.currentRow ++ fs.dropLast,
                   currentRowQuotedFlags :=
                     s.currentRowQuotedFlags ++ List.replicate (fs.length - 1) false,
                   currentField := fs.getLastD [] } rest
  | [], _, rest, hne, _, _, _, _ => absurd rfl hne
  | [f], s, rest, _, hcl, hq, hfq, hcf => by
    obtain ⟨cr, cfl, cf, iq, ifq, rn⟩ := s
    dsimp only at hq hfq hcf
    subst hq hfq hcf
    have h1 : joinSep [d] [f] = f := rfl
    rw [h1, scanList_clean_field f rest (hcl f (by simp)) rfl rfl]
    simp
  | f :: f2 :: fs', s, rest, _, hcl, hq, hfq, hcf => by
    obtain ⟨cr, cfl, cf, iq, ifq, rn⟩ := s
    dsimp only at hq hfq hcf
    subst hq hfq hcf
    have h1 : joinSep [d] (f :: f2 :: fs') ++ rest
        = f ++ (d :: (joinSep [d] (f2 :: fs') ++ rest)) := by
      show (f ++ [d] ++ joinSep [d] (f2 :: fs')) ++ rest = _
      simp
    rw [h1, scanList_clean_field f (d :: (joinSep [d] (f2 :: fs') ++ rest))
      (hcl f (by simp)) rfl rfl]
    have hstep := @scanStep_delim d ⟨cr, cfl, [] ++ f, false, false, rn⟩
      (joinSep [d] (f2 :: fs') ++ rest).head? rfl hd1
    rw [scanList_cons_none hstep]
    have hrec := rowFieldsScan hd1 (f2 :: fs')
      (s := appendFieldS ⟨cr, cfl, [] ++ f, false, false, rn⟩) rest (by simp)
      (fun x hx => hcl x (by simp at hx; simp [hx])) rfl rfl rfl
    rw [hrec]
    have e1 : cr ++ [[] ++ f] ++ (f2 :: fs').dropLast = cr ++ (f :: f2 :: fs').dropLast := by
      simp [List.dropLast_cons₂]
    have e2 : cfl ++ [false] ++ List.replicate ((f2 :: fs').length - 1) false
        = cfl ++ List.replicate ((f :: f2 :: fs').length - 1) false := by
      have : (f :: f2 :: fs').length - 1 = ((f2 :: fs').length - 1) + 1 := by
        simp
      rw [this, List.replicate_succ]
      simp
    have e3 : (f2 :: fs').getLastD [] = (f :: f2 :: fs').getLastD [] :=
      (getLastD_cons₂ [] f (f2 :: fs') (by simp)).symm
    show scanList d false
        ⟨cr ++ [[] ++ f] ++ (f2 :: fs').dropLast,
         cfl ++ [false] ++ List.replicate ((f2 :: fs').length - 1) false,
         (f2 :: fs').getLastD [], false, false, rn⟩ rest = _
    rw [e1, e2, e3]

/-- Scanning the join (by a single newline) of quote-free rows from a fresh
state at row number `n`: all rows but the last are emitted as raw rows with
consecutive row numbers, and the last row is left pending in the state. -/
theorem textScan {d : Char} (hd1 : d ≠ '"') (hdn : d ≠ '\n') :
    ∀ (rss : List (List (List Char))) (n : Nat),
      rss ≠ [] →
      (∀ fs ∈ rss, fs ≠ [] ∧ ∀ f ∈ fs, CleanField d f) →
      scanList d false (freshScan n) (joinSep ['\n'] (rss.map (joinSep [d]))) =
        (⟨(rss.getLastD []).dropLast,
          List.replicate ((rss.getLastD []).length - 1) false,
          (rss.getLastD []).getLastD [], false, false, n + (rss.length - 1)⟩,
         (cleanRawRows n rss).dropLast)
  | [], _, hne, _ => absurd rfl hne
  | [fs], n, _, hcl => by
    have h1 := (hcl fs (by simp)).1
    have h2 := (hcl fs (by simp)).2
    have hx : joinSep ['\n'] ([fs].map (joinSep [d])) = joinSep [d] fs ++ [] := by
      show joinSep [d] fs = joinSep [d] fs ++ []
      exact (List.append_nil _).symm
    rw [hx, rowFieldsScan hd1 fs [] h1 h2 rfl rfl rfl]
    rfl
  | fs :: fs2 :: rss', n, _, hcl => by
    have h1 := (hcl fs (by simp)).1
    have h2 := (hcl fs (by simp)).2
    have hx : joinSep ['\n'] ((fs :: fs2 :: rss').map (joinSep [d]))
        = joinSep [d] fs ++ ('\n' :: joinSep ['\n'] ((fs2 :: rss').map (joinSep [d]))) := by
      show joinSep [d] fs ++ ['\n'] ++ joinSep ['\n'] ((fs2 :: rss').map (joinSep [d])) = _
      simp
    rw [hx, rowFieldsScan hd1 fs _ h1 h2 rfl rfl rfl]
    show scanList d false
        ⟨fs.dropLast, List.replicate (fs.length - 1) false, fs.getLastD [], false, false, n⟩
        ('\n' :: joinSep ['\n'] ((fs2 :: rss').map (joinSep [d]))) = _
    have hstep : scanStep d
        ⟨fs.dropLast, List.replicate (fs.length - 1) false, fs.getLastD [], false, false, n⟩
        '\n' (joinSep ['\n'] ((fs2 :: rss').map (joinSep [d]))).head?
        = (freshScan (n + 1),
           some ⟨fs.dropLast ++ [fs.getLastD []],
                 List.replicate (fs.length - 1) false ++ [false], n⟩, false) := by
      rw [scanStep_newline rfl hdn]
      rfl
    rw [scanList_cons_some hstep]
    have hrow : (⟨fs.dropLast ++ [fs.getLastD []],
        List.replicate (fs.length - 1) false ++ [false], n⟩ : RawRow)
        = ⟨fs, List.replicate fs.length false, n⟩ := by
      have hl : fs.length - 1 + 1 = fs.length := Nat.succ_pred_eq_of_pos (List.length_pos.2 h1)
      rw [dropLast_append_getLastD [] fs h1, ← List.replicate_succ', hl]
    rw [textScan hd1 hdn (fs2 :: rss') (n + 1) (by simp)
      (fun x hx => hcl x (List.mem_cons_of_mem _ hx)), hrow]
    have hclean : cleanRawRows n (fs :: fs2 :: rss')
        = ⟨fs, List.replicate fs.length false, n⟩ :: cleanRawRows (n + 1) (fs2 :: rss') := rfl
    have htail : cleanRawRows (n + 1) (fs2 :: rss') ≠ [] := by
      show (⟨fs2, List.replicate fs2.length false, n + 1⟩ : RawRow)
        :: cleanRawRows (n + 2) rss' ≠ []
      simp
    rw [hclean, List.dropLast_cons_of_ne_nil htail]
    have e1 : (fs :: fs2 :: rss').getLastD [] = (fs2 :: rss').getLastD [] :=
      getLastD_cons₂ [] fs _ (by simp)
    have e2 : n + 1 + ((fs2 :: rss').length - 1) = n + ((fs :: fs2 :: rss').length - 1) := by
      show n + 1 + ((rss'.length + 1) - 1) = n + ((rss'.length + 1 + 1) - 1)
      omega
    rw [e1, ← e2]

-- #region Clean-value processing lemmas, C2

theorem escapeCSVValue_clean {s : List Char} {d : Char} (h : CleanField d s) :
    escapeCSVValue (some s) d false = s := by
  have h1 : decide ('"' ∈ s) = false := by
    simp only [decide_eq_false_iff_not]
    exact fun hm => (h _ hm).1 rfl
  have h2 : decide (d ∈ s) = false := by
    simp only [decide_eq_false_iff_not]
    exact fun hm => (h _ hm).2.1 rfl
  have h3 : decide ('\n' ∈ s) = false := by
    simp only [decide_eq_false_iff_not]
    exact fun hm => (h _ hm).2.2.1 rfl
  have h4 : decide ('\r' ∈ s) = false := by
    simp only [decide_eq_false_iff_not]
    exact fun hm => (h _ hm).2.2.2 rfl
  show (if (false || decide (d ∈ s) || decide ('"' ∈ s) ||
      decide ('\n' ∈ s) || decide ('\r' ∈ s) : Bool) = true then
      '"' :: ((if decide ('"' ∈ s) = true then replaceAllQuotes s else s) ++ ['"']) else s) = s
  rw [h1, h2, h3, h4]
  rfl

/-- With pairwise-distinct keys and clean values, the per-column lookup of
`encodeCSVRow` reproduces exactly the record's value list. -/
theorem lookupRow_clean {d : Char} :
    ∀ (r : CSVRec), (r.map Prod.fst).Nodup → (∀ p ∈ r, CleanField d p.2) →
      (r.map Prod.fst).map (fun key => escapeCSVValue (r.lookup key) d false) = r.map Prod.snd
  | [], _, _ => rfl
  | (k, v) :: r', hnd, hcl => by
    have hk : List.lookup k ((k, v) :: r') = some v := by
      simp [List.lookup]
    have hnotin : k ∉ r'.map Prod.fst := by
      simp only [List.map_cons, List.nodup_cons] at hnd
      exact hnd.1
    have htl : ∀ key ∈ r'.map Prod.fst,
        escapeCSVValue (List.lookup key ((k, v) :: r')) d false
          = escapeCSVValue (List.lookup key r') d false := by
      intro key hkey
      have hne : (key == k) = false := by
        simp only [beq_eq_false_iff_ne]
        exact fun he => hnotin (he ▸ hkey)
      simp [List.lookup, hne]
    show escapeCSVValue (List.lookup k ((k, v) :: r')) d false
        :: (r'.map Prod.fst).map (fun key => escapeCSVValue (List.lookup key ((k, v) :: r')) d false)
      = v :: r'.map Prod.snd
    rw [hk, escapeCSVValue_clean (hcl (k, v) (by simp)), List.map_congr_left htl,
      lookupRow_clean r' (by simp only [List.map_cons, List.nodup_cons] at hnd; exact hnd.2)
        (fun p hp => hcl p (List.mem_cons_of_mem _ hp))]

theorem mapWithIndex_congr {α β : Type} {f g : Nat → α → β}
    (h : ∀ n a, f n a = g n a) : ∀ (n : Nat) (l : List α), mapWithIndex f n l = mapWithIndex g n l
  | _, [] => rfl
  | n, x :: xs => by
    show f n x :: mapWithIndex f (n + 1) xs = g n x :: mapWithIndex g (n + 1) xs
    rw [h n x, mapWithIndex_congr h (n + 1) xs]

theorem mapWithIndex_congr_map {α β : Type} (f : Nat → α → β) (g : α → β)
    (h : ∀ n a, f n a = g a) : ∀ (n : Nat) (l : List α), mapWithIndex f n l = l.map g
  | _, [] => rfl
  | n, x :: xs => by
    show f n x :: mapWithIndex f (n + 1) xs = g x :: xs.map g
    rw [h n x, mapWithIndex_congr_map f g h (n + 1) xs]

theorem getD_replicate_false : ∀ (n i : Nat), (List.replicate n (false : Bool)).getD i false = false
  | 0, 0 => rfl
  | 0, _ + 1 => rfl
  | _ + 1, 0 => rfl
  | n + 1, i + 1 => getD_replicate_false n i

theorem headerNames_clean {columns : List (List Char)} {flags : List Bool}
    (hflags : ∀ i, flags.getD i false = false)
    (htf : ∀ c ∈ columns, jsTrim c = c) :
    headerNames true columns flags = columns := by
  unfold headerNames
  rw [if_pos rfl, mapWithIndex_congr_map _ jsTrim
    (fun n a => by rw [hflags n]; exact if_neg Bool.false_ne_true),
    List.map_congr_left htf]
  exact List.map_id columns

/-- Rebuilding a record from its key and value lists: the `mapWithIndex`
of `processDataRow` recovers exactly the original association list when
the values are trim-fixed. -/
theorem rowRebuild (vs : List (List Char)) :
    ∀ (r : CSVRec) (n : Nat), vs.length = n + r.length →
      vs.drop n = r.map Prod.snd → (∀ p ∈ r, jsTrim p.2 = p.2) →
      mapWithIndex (fun i h => (h, jsTrim (vs.getD i []))) n (r.map Prod.fst) = r
  | [], _, _, _, _ => rfl
  | (k, v) :: r', n, hlen, hdrop, htf => by
    have hn : n < vs.length := by simp at hlen; omega
    rw [List.drop_eq_getElem_cons hn] at hdrop
    injection hdrop with hv hdrop'
    show (k, jsTrim (vs.getD n [])) :: mapWithIndex
        (fun i h => (h, jsTrim (vs.getD i []))) (n + 1) (r'.map Prod.fst) = (k, v) :: r'
    rw [List.getD_eq_getElem?_getD, List.getElem?_eq_getElem hn, Option.getD_some, hv,
      htf (k, v) (by simp),
      rowRebuild vs r' (n + 1) (by simp at hlen ⊢; omega) hdrop'
        (fun p hp => htf p (List.mem_cons_of_mem _ hp))]

/-- A clean, trim-fixed data row whose keys are exactly the headers is
reconstructed verbatim by `processDataRow` (with the default trim/strict),
provided the row is not mistaken for a blank line. -/
theorem processDataRow_clean {r : CSVRec} {columns : List (List Char)} {m : Nat}
    (hkeys : r.map Prod.fst = columns)
    (hvals : ∀ p ∈ r, jsTrim p.2 = p.2)
    (hpop : 1 < columns.length ∨ ∃ p ∈ r, p.2 ≠ []) :
    processDataRow true true columns (r.map Prod.snd)
      (List.replicate (r.map Prod.snd).length false) m = .ok (some r) := by
  have hlen : columns.length = r.length := by rw [← hkeys]; simp
  have hmap : mapWithIndex (fun i f => isFieldPopulated true f
      ((List.replicate (r.map Prod.snd).length false).getD i false)) 0 (r.map Prod.snd)
      = (r.map Prod.snd).map (fun f => decide (jsTrim f ≠ [])) :=
    mapWithIndex_congr_map _ _ (fun n a => by rw [getD_replicate_false]; rfl) 0 (r.map Prod.snd)
  simp only [processDataRow]
  have hcond1 : ¬(¬1 < (r.map Prod.snd).length ∧
      (mapWithIndex (fun i f => isFieldPopulated true f
        ((List.replicate (r.map Prod.snd).length false).getD i false)) 0 (r.map Prod.snd)).any id
        = false) := by
    rcases hpop with h1 | ⟨p, hp, hne⟩
    · exact fun hc => hc.1 (by rw [List.length_map, ← hlen]; exact h1)
    · intro hc
      have hc2 := hc.2
      rw [hmap] at hc2
      have hTrue : ((r.map Prod.snd).map (fun f => decide (jsTrim f ≠ []))).any id = true :=
        List.any_eq_true.mpr ⟨_, List.mem_map_of_mem _ (List.mem_map_of_mem _ hp), by
          show id (decide (jsTrim p.2 ≠ [])) = true
          rw [hvals p hp]
          exact decide_eq_true hne⟩
      rw [hc2] at hTrue
      exact absurd hTrue (by decide)
  have hcond2 : ¬(columns.length < (r.map Prod.snd).length ∧ True ∧
      overflowPopulated true columns (r.map Prod.snd)
        (List.replicate (r.map Prod.snd).length false) = true) :=
    fun hc => absurd hc.1 (by rw [List.length_map, hlen]; exact lt_irrefl _)
  rw [if_neg hcond1, if_neg hcond2,
    mapWithIndex_congr (g := fun i h => (h, jsTrim ((r.map Prod.snd).getD i [])))
      (fun n a => by rw [getD_replicate_false, if_pos ⟨trivial, rfl⟩]) 0 columns, ← hkeys,
    rowRebuild (r.map Prod.snd) r 0 (by simp) rfl hvals]

/-- Folding the data rows of a clean round-trip document into a core state
whose headers are already fixed appends exactly the original records. -/
theorem foldData {d : Char} (columns : List (List Char)) :
    ∀ (data : List CSVRec) (n : Nat) (st : CoreState),
      st.headers = some columns →
      (∀ r ∈ data, r.map Prod.fst = columns ∧ (∀ p ∈ r, jsTrim p.2 = p.2) ∧
        (1 < columns.length ∨ ∃ p ∈ r, p.2 ≠ [])) →
      (cleanRawRows n (data.map (fun r => r.map Prod.snd))).foldlM
          (coreProcessRow ⟨d, true, true⟩) st
        = .ok { st with recs := st.recs ++ data }
  | [], n, st, hh, _ => by
    show Except.ok st = Except.ok { st with recs := st.recs ++ [] }
    rw [List.append_nil]
  | r :: data', n, st, hh, hcl => by
    have hcons : cleanRawRows n ((r :: data').map (fun r => r.map Prod.snd))
        = (⟨r.map Prod.snd, List.replicate (r.map Prod.snd).length false, n⟩ : RawRow)
          :: cleanRawRows (n + 1) (data'.map (fun r => r.map Prod.snd)) := rfl
    rw [hcons, List.foldlM_cons]
    have hstep : coreProcessRow ⟨d, true, true⟩ st
        ⟨r.map Prod.snd, List.replicate (r.map Prod.snd).length false, n⟩
        = .ok { st with recs := st.recs ++ [r] } := by
      rw [coreProcessRow_eq_some hh]
      dsimp only
      rw [processDataRow_clean (hcl r (by simp)).1 (hcl r (by simp)).2.1 (hcl r (by simp)).2.2]
      rfl
    rw [hstep]
    show (cleanRawRows (n + 1) (data'.map (fun r => r.map Prod.snd))).foldlM
        (coreProcessRow ⟨d, true, true⟩) { st with recs := st.recs ++ [r] }
        = Except.ok { st with recs := st.recs ++ r :: data' }
    rw [foldData columns data' (n + 1) { st with recs := st.recs ++ [r] } hh
      (fun x hx => hcl x (List.mem_cons_of_mem _ hx))]
    have harr : st.recs ++ [r] ++ data' = st.recs ++ r :: data' := by simp
    rw [harr]

theorem jsTrim_ne_nil {T : List Char} {c : Char} (hc : c ∈ T)
    (hw : isJSWhitespace c = false) : jsTrim T ≠ [] := by
  intro h
  unfold jsTrim at h
  rw [List.reverse_eq_nil_iff, List.dropWhile_eq_nil_iff] at h
  have hc1 : c ∈ T.dropWhile isJSWhitespace := by
    have he := List.takeWhile_append_dropWhile isJSWhitespace T
    rw [← he] at hc
    rcases List.mem_append.1 hc with h1 | h1
    · have := List.mem_takeWhile_imp h1
      rw [hw] at this
      exact Bool.noConfusion this
    · exact h1
  have := h c (by rw [List.mem_reverse]; exact hc1)
  rw [hw] at this
  exact Bool.noConfusion this

theorem jsTrim_all_ws {s : List Char} (h : ∀ x ∈ s, isJSWhitespace x = true) :
    jsTrim s = [] := by
  unfold jsTrim
  rw [List.dropWhile_eq_nil_iff.mpr h]
  rfl

/-- A nonempty trim-fixed string has a non-whitespace character. -/
theorem exists_non_ws {s : List Char} (hne : s ≠ []) (htf : jsTrim s = s) :
    ∃ c ∈ s, isJSWhitespace c = false := by
  by_contra hall
  push_neg at hall
  have : ∀ x ∈ s, isJSWhitespace x = true := by
    intro x hx
    have := hall x hx
    cases hb : isJSWhitespace x
    · exact absurd hb this
    · rfl
  exact hne (htf ▸ jsTrim_all_ws this)

/-- The encoder output on clean data: `createCSV` produces exactly the rows
(header first, then each record's value list) joined by the delimiter and
by single newlines. -/
theorem createCSV_clean {data : List CSVRec} {columns : List (List Char)} {d : Char}
    (hcols_ne : columns ≠ [])
    (hclean : ∀ c ∈ columns, CleanField d c)
    (hnd : columns.Nodup)
    (hdata : ∀ r ∈ data, r.map Prod.fst = columns ∧ ∀ p ∈ r, CleanField d p.2) :
    createCSV data columns { delimiter := [d] }
      = .ok (joinSep ['\n']
        ((columns :: data.map (fun r => r.map Prod.snd)).map (joinSep [d]))) := by
  have hheader : encodeCSVHeader columns d false = joinSep [d] columns := by
    unfold encodeCSVHeader
    rw [List.map_congr_left (fun c hc => escapeCSVValue_clean (hclean c hc))]
    rw [show columns.map (fun col => col) = columns.map id from rfl, List.map_id]
  have hrow : ∀ r ∈ data, encodeCSVRow r columns d false = joinSep [d] (r.map Prod.snd) := by
    intro r hr
    unfold encodeCSVRow
    rw [← (hdata r hr).1,
      lookupRow_clean r ((hdata r hr).1.symm ▸ hnd) (hdata r hr).2]
  unfold createCSV
  rw [if_neg (fun hc => hcols_ne hc.1)]
  cases data with
  | nil =>
    show Except.ok (encodeCSVHeader columns d false)
      = Except.ok (joinSep ['\n'] [joinSep [d] columns])
    rw [hheader]
    rfl
  | cons r1 data' =>
    show Except.ok (encodeCSVHeader columns d false ++ ['\n'] ++
        joinSep ['\n'] ((r1 :: data').map (fun row => encodeCSVRow row columns d false)))
      = _
    rw [hheader, List.map_congr_left hrow]
    have hmm : (r1 :: data').map (fun r => joinSep [d] (r.map Prod.snd))
        = ((r1 :: data').map (fun r => r.map Prod.snd)).map (joinSep [d]) := by
      rw [List.map_map]
      rfl
    rw [hmm]
    rfl

theorem mapWithIndex_append {α β : Type} (f : Nat → α → β) :
    ∀ (n : Nat) (l1 l2 : List α),
      mapWithIndex f n (l1 ++ l2) = mapWithIndex f n l1 ++ mapWithIndex f (n + l1.length) l2
  | _, [], _ => rfl
  | n, x :: l1, l2 => by
    show f n x :: mapWithIndex f (n + 1) (l1 ++ l2)
        = f n x :: (mapWithIndex f (n + 1) l1 ++ mapWithIndex f (n + (l1.length + 1)) l2)
    rw [mapWithIndex_append f (n + 1) l1 l2]
    have harith : n + 1 + l1.length = n + (l1.length + 1) := by omega
    rw [harith]

theorem getLastD_mem {α : Type} (x : α) {l : List α} (h : l ≠ []) : l.getLastD x ∈ l := by
  rw [getLastD_eq_getLast x l h]
  exact List.getLast_mem h

theorem mem_joinSep_head {sep x : List Char} {xs : List (List Char)} {c : Char}
    (hc : c ∈ x) : c ∈ joinSep sep (x :: xs) := by
  cases xs with
  | nil => exact hc
  | cons y ys =>
    show c ∈ x ++ sep ++ joinSep sep (y :: ys)
    simp [hc]

/-- `finish` with a pending quote-free leftover row: the leftover is emitted
as one more raw row (with the current row number) and processed. -/
theorem coreFinish_pending (o : CoreOptions) {st : CoreState} {fs : List (List Char)} {n0 : Nat}
    (hscan : st.scan = ⟨fs.dropLast, List.replicate (fs.length - 1) false,
      fs.getLastD [], false, false, n0⟩)
    (hne : fs ≠ [])
    (hpend : fs.getLastD [] ≠ [] ∨ fs.dropLast ≠ []) :
    coreFinish o st = coreProcessRow o { st with scan := ⟨[], [], [], false, false, n0 + 1⟩ }
      ⟨fs, List.replicate fs.length false, n0⟩ := by
  unfold coreFinish
  rw [hscan]
  dsimp only
  rw [if_neg (by simp), if_pos hpend]
  show coreProcessRow o { st with scan := ⟨[], [], [], false, false, n0 + 1⟩ }
      ⟨fs.dropLast ++ [fs.getLastD []], List.replicate (fs.length - 1) false ++ [false], n0⟩ = _
  have hl : fs.length - 1 + 1 = fs.length := Nat.succ_pred_eq_of_pos (List.length_pos.2 hne)
  rw [dropLast_append_getLastD [] fs hne, ← List.replicate_succ', hl]

/-- C2 (amended): round-trip.  For every record set `data` over an explicit,
duplicate-free, nonempty column list whose names are nonempty, delimiter-,
quote- and newline-free and invariant under trimming, and every
single-character delimiter `d` (other than `"` and `\n`), if every field
value is delimiter/quote/newline-free and invariant under trimming, and
either there are at least two columns or every record has some nonempty
value (so no data row is mistaken for a blank line), then parsing the
`createCSV` output with the same delimiter returns exactly `data`. -/
theorem round_trip_contract
    (data : List CSVRec) (columns : List (List Char)) (d : Char) (T : List Char)
    (hd1 : d ≠ '"') (hdn : d ≠ '\n')
    (hcols_ne : columns ≠ []) (hnd : columns.Nodup)
    (hcols : ∀ c ∈ columns, c ≠ [] ∧ CleanField d c ∧ jsTrim c = c)
    (hdata : ∀ r ∈ data, r.map Prod.fst = columns ∧
      ∀ p ∈ r, CleanField d p.2 ∧ jsTrim p.2 = p.2)
    (hpop : 1 < columns.length ∨ ∀ r ∈ data, ∃ p ∈ r, p.2 ≠ [])
    (hT : createCSV data columns { delimiter := [d] } = .ok T) :
    parseCSV (some T) { delimiter := [d] } = .ok data := by
  rw [createCSV_clean hcols_ne (fun c hc => (hcols c hc).2.1) hnd
    (fun r hr => ⟨(hdata r hr).1, fun p hp => ((hdata r hr).2 p hp).1⟩)] at hT
  injection hT with hTT
  have hcleanrows : ∀ fs ∈ columns :: data.map (fun r => r.map Prod.snd),
      fs ≠ [] ∧ ∀ f ∈ fs, CleanField d f := by
    intro fs hfs
    rcases List.mem_cons.1 hfs with h | h
    · subst h
      exact ⟨hcols_ne, fun f hf => (hcols f hf).2.1⟩
    · obtain ⟨r, hr, rfl⟩ := List.mem_map.1 h
      refine ⟨?_, ?_⟩
      · intro hnil
        have hr0 : r = [] := by
          cases r with
          | nil => rfl
          | cons p t => exact absurd hnil (by simp)
        have h2 := (hdata r hr).1
        rw [hr0] at h2
        exact hcols_ne h2.symm
      · intro f hf
        obtain ⟨p, hp, rfl⟩ := List.mem_map.1 hf
        exact ((hdata r hr).2 p hp).1
  have hscan := textScan hd1 hdn (columns :: data.map (fun r => r.map Prod.snd)) 1
    (by simp) hcleanrows
  obtain ⟨c0, cols', hcolseq⟩ : ∃ c0 cols', columns = c0 :: cols' := by
    cases columns with
    | nil => exact absurd rfl hcols_ne
    | cons a b => exact ⟨a, b, rfl⟩
  obtain ⟨ch, hch0, hchw⟩ := exists_non_ws (hcols c0 (by rw [hcolseq]; simp)).1
    (hcols c0 (by rw [hcolseq]; simp)).2.2
  have hchT : ch ∈ T := by
    rw [← hTT, hcolseq]
    exact mem_joinSep_head (mem_joinSep_head hch0)
  simp only [parseCSV]
  rw [if_neg (jsTrim_ne_nil hchT hchw)]
  show (runCore ⟨d, true, true⟩ [T]).map (fun st => st.recs) = Except.ok data
  have hpush : corePushChunk ⟨d, true, true⟩ {} T
      = (cleanRawRows 1 (columns :: data.map (fun r => r.map Prod.snd))).dropLast.foldlM
          (coreProcessRow ⟨d, true, true⟩)
          { scan := ⟨((columns :: data.map (fun r => r.map Prod.snd)).getLastD []).dropLast,
              List.replicate
                (((columns :: data.map (fun r => r.map Prod.snd)).getLastD []).length - 1) false,
              ((columns :: data.map (fun r => r.map Prod.snd)).getLastD []).getLastD [],
              false, false, 1 + ((columns :: data.map (fun r => r.map Prod.snd)).length - 1)⟩,
            headers := none, recs := [] } := by
    show (match scanList d false (freshScan 1) T with
      | (s1, rows) => rows.foldlM (coreProcessRow ⟨d, true, true⟩)
          { scan := s1, headers := none, recs := [] }) = _
    rw [← hTT, hscan]
  have hHN : headerNames true columns (List.replicate columns.length false) = columns :=
    headerNames_clean (fun i => getD_replicate_false _ _) (fun c hc => (hcols c hc).2.2)
  have hnm0 : [] ∉ columns := fun hmem => (hcols [] hmem).1 rfl
  have hhdr : ∀ (sc : ScanState) (m : Nat), coreProcessRow ⟨d, true, true⟩
      { scan := sc, headers := none, recs := [] }
      ⟨columns, List.replicate columns.length false, m⟩
      = .ok { scan := sc, headers := some columns, recs := [] } := by
    intro sc m
    rw [coreProcessRow_eq_none rfl]
    dsimp only
    rw [processHeaderRow_success (by rw [hHN]; exact hnm0) (by rw [hHN]; exact hnd), hHN]
    rfl
  rcases List.eq_nil_or_concat data with rfl | ⟨data', rlast, hcat⟩
  · -- no data rows: the single pending row is the header row
    have hpush0 : corePushChunk ⟨d, true, true⟩ {} T = .ok
        { scan := ⟨columns.dropLast, List.replicate (columns.length - 1) false,
            columns.getLastD [], false, false, 1⟩, headers := none, recs := [] } := by
      rw [hpush]
      rfl
    have hrun : runCore ⟨d, true, true⟩ [T] = coreFinish ⟨d, true, true⟩
        { scan := ⟨columns.dropLast, List.replicate (columns.length - 1) false,
            columns.getLastD [], false, false, 1⟩, headers := none, recs := [] } := by
      unfold runCore
      rw [List.foldlM_cons, hpush0]
      rfl
    rw [hrun, coreFinish_pending _ rfl hcols_ne
      (Or.inl (hcols _ (getLastD_mem [] hcols_ne)).1), hhdr _ 1]
    rfl
  · have hcat' : data = data' ++ [rlast] := by rw [hcat, List.concat_eq_append]
    subst hcat'
    have hlast : (columns :: (data' ++ [rlast]).map (fun r => r.map Prod.snd)).getLastD []
        = rlast.map Prod.snd := by
      rw [getLastD_cons₂ _ _ _ (by simp), List.map_append]
      exact List.getLastD_concat _ _ _
    have hlen_rlast : rlast.map Prod.fst = columns := (hdata rlast (by simp)).1
    have hrl_ne : rlast.map Prod.snd ≠ [] := by
      intro h0
      cases rlast with
      | nil => exact hcols_ne hlen_rlast.symm
      | cons p t => exact absurd h0 (by simp)
    have hlc : rlast.length = columns.length := by
      have := congrArg List.length hlen_rlast
      rwa [List.length_map] at this
    have hrows : (cleanRawRows 1
          (columns :: (data' ++ [rlast]).map (fun r => r.map Prod.snd))).dropLast
        = (⟨columns, List.replicate columns.length false, 1⟩ : RawRow)
          :: cleanRawRows 2 (data'.map (fun r => r.map Prod.snd)) := by
      have h1 : cleanRawRows 1 (columns :: (data' ++ [rlast]).map (fun r => r.map Prod.snd))
          = (⟨columns, List.replicate columns.length false, 1⟩ : RawRow)
            :: cleanRawRows 2 ((data' ++ [rlast]).map (fun r => r.map Prod.snd)) := rfl
      have hsplit2 : cleanRawRows 2 (data'.map (fun r => r.map Prod.snd)
            ++ [rlast].map (fun r => r.map Prod.snd))
          = cleanRawRows 2 (data'.map (fun r => r.map Prod.snd))
            ++ [⟨rlast.map Prod.snd, List.replicate (rlast.map Prod.snd).length false,
                2 + (data'.map (fun r => r.map Prod.snd)).length⟩] :=
        mapWithIndex_append _ 2 _ _
      rw [h1, List.map_append, hsplit2, List.dropLast_cons_of_ne_nil (by simp),
        List.dropLast_concat]
    have hperrec : ∀ r ∈ data', r.map Prod.fst = columns ∧ (∀ p ∈ r, jsTrim p.2 = p.2) ∧
        (1 < columns.length ∨ ∃ p ∈ r, p.2 ≠ []) := by
      intro r hr
      have hmem : r ∈ data' ++ [rlast] := by simp [hr]
      refine ⟨(hdata r hmem).1, fun p hp => ((hdata r hmem).2 p hp).2, ?_⟩
      rcases hpop with h | h
      · exact Or.inl h
      · exact Or.inr (h r hmem)
    have hpushOk : corePushChunk ⟨d, true, true⟩ {} T = .ok
        { scan := ⟨(rlast.map Prod.snd).dropLast,
            List.replicate ((rlast.map Prod.snd).length - 1) false,
            (rlast.map Prod.snd).getLastD [], false, false,
            1 + ((columns :: (data' ++ [rlast]).map (fun r => r.map Prod.snd)).length - 1)⟩,
          headers := some columns, recs := data' } := by
      rw [hpush, hlast, hrows, List.foldlM_cons, hhdr _ 1]
      show (cleanRawRows 2 (data'.map (fun r => r.map Prod.snd))).foldlM
          (coreProcessRow ⟨d, true, true⟩)
          { scan := ⟨(rlast.map Prod.snd).dropLast,
              List.replicate ((rlast.map Prod.snd).length - 1) false,
              (rlast.map Prod.snd).getLastD [], false, false,
              1 + ((columns :: (data' ++ [rlast]).map (fun r => r.map Prod.snd)).length - 1)⟩,
            headers := some columns, recs := [] } = _
      rw [foldData columns data' 2 _ rfl hperrec]
      rfl
    have hrunB : runCore ⟨d, true, true⟩ [T] = coreFinish ⟨d, true, true⟩
        { scan := ⟨(rlast.map Prod.snd).dropLast,
            List.replicate ((rlast.map Prod.snd).length - 1) false,
            (rlast.map Prod.snd).getLastD [], false, false,
            1 + ((columns :: (data' ++ [rlast]).map (fun r => r.map Prod.snd)).length - 1)⟩,
          headers := some columns, recs := data' } := by
      unfold runCore
      rw [List.foldlM_cons, hpushOk]
      rfl
    have hpendB : (rlast.map Prod.snd).getLastD [] ≠ [] ∨ (rlast.map Prod.snd).dropLast ≠ [] := by
      by_cases hcl2 : 1 < columns.length
      · refine Or.inr (fun h0 => ?_)
        have hl0 := congrArg List.length h0
        rw [List.length_dropLast, List.length_map] at hl0
        simp at hl0
        omega
      · have hc1 : columns.length = 1 := by
          have := List.length_pos.2 hcols_ne
          omega
        have h1 : rlast.length = 1 := by omega
        obtain ⟨p0, hp0⟩ := List.length_eq_one.1 h1
        rcases hpop with hc | h
        · exact absurd hc hcl2
        · obtain ⟨p, hp, hpne⟩ := h rlast (by simp)
          rw [hp0] at hp
          have hpp : p = p0 := by simpa using hp
          rw [hpp] at hpne
          refine Or.inl ?_
          rw [hp0]
          exact hpne
    have hpoplast : 1 < columns.length ∨ ∃ p ∈ rlast, p.2 ≠ [] := by
      rcases hpop with h | h
      · exact Or.inl h
      · exact Or.inr (h rlast (by simp))
    rw [hrunB, coreFinish_pending _ rfl hrl_ne hpendB, coreProcessRow_eq_some rfl]
    dsimp only
    rw [processDataRow_clean hlen_rlast
      (fun p hp => ((hdata rlast (by simp)).2 p hp).2) hpoplast]
    rfl

/-- C2, counterexample to the original wording: the value `" x "` contains
no delimiter, no quote and no newline, yet the round trip loses its
surrounding whitespace — the decoder's default `trim` maps it to `"x"`. -/
theorem round_trip_counterexample :
    createCSV [[(chars "a", chars " x ")]] [chars "a"] { delimiter := [','] }
      = .ok (chars "a\n x ") ∧
    parseCSV (some (chars "a\n x ")) { delimiter := [','] }
      = .ok [[(chars "a", chars "x")]] ∧
    [[(chars "a", chars "x")]] ≠ [[(chars "a", chars " x ")]] ∧
    (∀ c ∈ chars " x ", c ≠ ',' ∧ c ≠ '"' ∧ c ≠ '\n' ∧ c ≠ '\r') := by
  decide

/-- C2, witness: the amended round trip at a concrete two-column record. -/
theorem round_trip_witness :
    parseCSV (some (chars "a,b\n1,2")) { delimiter := [','] }
      = .ok [[(chars "a", chars "1"), (chars "b", chars "2")]] :=
  round_trip_contract [[(chars "a", chars "1"), (chars "b", chars "2")]]
    [chars "a", chars "b"] ',' (chars "a,b\n1,2")
    (by decide) (by decide) (by decide) (by decide)
    (by decide) (by decide) (by decide) (by decide)
